import Mathlib

/-!
Verification development for the route/navigation registry of `src/lib/router.ts`
(the `Route` / `Router` classes).

The embedding is a shallow one:
* JavaScript strings are `List Char` (`Str`).
* The mutable object graph of `Route` instances is a `Store`: a list of
  `RouteObj` records indexed by allocation order; a `Nat` index plays the
  role of a JavaScript object reference, so `Nat` equality models `===`
  object identity.
* Getter chains that walk the `parent` back-reference (`fullName`,
  `fullPath`, `activePath`, `didCreateRoute`) are written with an explicit
  fuel argument; on well-formed stores (`WF`, parent indices strictly
  decrease) the canonical fuel is enough, which keeps every definition a
  structurally recursive, kernel-computable function.
* Methods that `throw` return `Except Str`; the error value is the thrown
  message, built exactly like the template literal in the source.
* `_onNewRoute` invocations are recorded as events `(owner, argument)`;
  the default listener of a fresh `Route` is the registered-listener flag
  `none`.
-/

namespace RouterSpec

/-- JavaScript strings, embedded as lists of characters. -/
abbrev Str := List Char

/-- Coerce a Lean string literal into the embedding's string type. -/
def chars (s : String) : Str := s.toList

/-- `str.substr(1)` on a JavaScript string (empty stays empty). -/
def jsTail (s : Str) : Str := s.drop 1

/-- `after(str, "/")` from `Route.matches`:
`str.includes("/") ? str.substr(str.indexOf("/") + 1) : ""`.
Dropping through the first `'/'` (inclusive) is exactly this: when no `'/'`
occurs, `dropWhile` removes everything and the result is `""`. -/
def afterSlash (s : Str) : Str := (s.dropWhile (fun c => !(c == '/'))).drop 1

/-- The recursive worker `match(dynamic, fixed)` inside `Route.matches`,
with an explicit fuel argument (every recursive call shrinks
`dynamic.length + fixed.length`, so any fuel above that sum computes the
JavaScript result).  The six guards appear in source order; out-of-range
JavaScript indexing (`str[i]` = `undefined`) is `List.get?`. -/
def matchRunF : Nat → Str → Str → Bool
  | 0, _, _ => false
  | fuel+1, d, f =>
    if d = [] ∧ f = [] then true
    else if d[1]? = some ':' ∧ f.length ≤ 1 then false
    else if d[0]? = some ':' ∧ f = [] then matchRunF fuel (afterSlash d) []
    else if d[0]? = some ':' ∧ f[0]? ≠ some '/' then matchRunF fuel d (jsTail f)
    else if d[0]? = some ':' ∧ f[0]? = some '/' then matchRunF fuel (afterSlash d) (jsTail f)
    else if d ≠ [] ∧ d[0]? = f[0]? then matchRunF fuel (jsTail d) (jsTail f)
    else false

/-- `match(dynamic, fixed)` at its canonical (always sufficient) fuel. -/
def matchRun (d f : Str) : Bool := matchRunF (d.length + f.length + 1) d f

/-- `Route.matches(path)`: throws when the candidate contains a dynamic
segment marker (`path.match(":")` is truthy), otherwise runs the
character-level walk against the route's `fullPath`.  (`matches` itself is
a reserved token in Lean, hence the name.) -/
def matchesPath (fullPath path : Str) : Except Str Bool :=
  if ':' ∈ path then
    .error (chars "Cannot match " ++ path ++
      chars ", it needs to be a valid URL with no dynamic segments")
  else
    .ok (matchRun fullPath path)

/-- Modelled from the spec: the matching semantics claimed for `matches` —
the pattern splits into fixed literal runs and dynamic runs (a dynamic run
starts at `:` and ends at the next `/` or end-of-string), a dynamic run
consumes one-or-more candidate characters up to the next `/`, fixed runs
match character-for-character, and both strings must be fully consumed.
This definition follows the claim's words, to be compared with the
source-derived `matchRun`; the fuel is shrunk pattern length, which every
step decreases. -/
def specConsumesF : Nat → Str → Str → Bool
  | 0, _, _ => false
  | _+1, [], cand => cand.isEmpty
  | fuel+1, c :: d, cand =>
    if c = ':' then
      let rest := (c :: d).dropWhile (fun x => !(x == '/'))
      let seg := cand.takeWhile (fun x => !(x == '/'))
      let candRest := cand.dropWhile (fun x => !(x == '/'))
      !seg.isEmpty && specConsumesF fuel rest candRest
    else
      match cand with
      | [] => false
      | a :: cand2 => a == c && specConsumesF fuel d cand2

/-- The claimed matching semantics at its canonical fuel. -/
def specConsumes (d cand : Str) : Bool := specConsumesF (d.length + 1) d cand

/-- `candidate.all (· ≠ '/')`: no path separator occurs. -/
def noSlashB (f : Str) : Bool := f.all (fun c => !(c == '/'))

/-- How the source's dynamic-segment tail `":classSlug"` actually consumes a
candidate remainder: either the remainder is slash-free (the dynamic run
takes it all, zero length included), or it is a slash-free run followed by
one final `'/'` (which the walk swallows together with the run). -/
def dynEndB (f : Str) : Bool :=
  noSlashB f || (noSlashB f.dropLast && (f.getLast? == some '/'))

/-! ## The object store

A `RouteObj` is the mutable state of one `Route` instance; a `Store` is the
heap, indexed by allocation order.  `activePathVal = none` models the
`undefined` state of `_activePath` before any assignment, and
`listener = none` models the default no-op `_onNewRoute` (a registered
callback is abstracted to a `Nat` tag, since only its identity and firing
order are observable here). -/

structure RouteObj where
  label : Str
  name : Str
  path : Str
  parentId : Option Nat
  childIds : List Nat
  activePathVal : Option Str
  listener : Option Nat
  deriving Repr, DecidableEq, Inhabited

abbrev Store := List RouteObj

/-- Read the object at index `i` (our ops only ever use valid indices). -/
def obj (s : Store) (i : Nat) : RouteObj := s.getD i default

/-- Replace the object at index `i` by `f` of its current value. -/
def modifyObj (s : Store) (i : Nat) (f : RouteObj → RouteObj) : Store :=
  s.set i (f (obj s i))

/-- The `parent` setter (`set parent(parent: Route)`): store the back
reference, then push `this` onto `parent.routes` unless already present.
Note the source performs no conflict check here. -/
def setParent (s : Store) (childId parentId : Nat) : Store :=
  let s1 := modifyObj s childId (fun o => { o with parentId := some parentId })
  if childId ∈ (obj s1 parentId).childIds then s1
  else modifyObj s1 parentId (fun o => { o with childIds := o.childIds ++ [childId] })

/-! ## Parent-chain getters (fuel-based) -/

/-- `fullName` getter: `[this.parent && this.parent.fullName, this.name]`
filtered to the truthy non-empty parts and joined with `"."`. -/
def skipEmpty (l : List Str) : List Str := l.filter (fun x => !x.isEmpty)

/-- `Array.prototype.join(".")` on the already-filtered parts. -/
def joinDot : List Str → Str
  | [] => []
  | [x] => x
  | x :: y :: xs => x ++ '.' :: joinDot (y :: xs)

/-- `Array.prototype.join("")`: plain concatenation. -/
def concatAll : List Str → Str
  | [] => []
  | x :: xs => x ++ concatAll xs

def fullNameF (s : Store) : Nat → Nat → Str
  | 0, _ => []
  | fuel+1, i =>
    match (obj s i).parentId with
    | none => joinDot (skipEmpty [(obj s i).name])
    | some p => joinDot (skipEmpty [fullNameF s fuel p, (obj s i).name])

/-- `Route.fullName` at the canonical fuel (sufficient on `WF` stores,
where parent indices strictly decrease). -/
def fullName (s : Store) (i : Nat) : Str := fullNameF s (i+1) i

def fullPathF (s : Store) : Nat → Nat → Str
  | 0, _ => []
  | fuel+1, i =>
    match (obj s i).parentId with
    | none => concatAll (skipEmpty [(obj s i).path])
    | some p => concatAll (skipEmpty [fullPathF s fuel p, (obj s i).path])

/-- `Route.fullPath` at the canonical fuel. -/
def fullPath (s : Store) (i : Nat) : Str := fullPathF s (i+1) i

def activePathF (s : Store) : Nat → Nat → Option Str
  | 0, _ => none
  | fuel+1, i =>
    match (obj s i).parentId with
    | none => (obj s i).activePathVal
    | some p => activePathF s fuel p

/-- The `activePath` getter: `this.parent ? this.parent.activePath :
this._activePath` (`none` is the never-assigned `undefined`). -/
def activePath (s : Store) (i : Nat) : Option Str := activePathF s (i+1) i

def rootOfF (s : Store) : Nat → Nat → Nat
  | 0, i => i
  | fuel+1, i =>
    match (obj s i).parentId with
    | none => i
    | some p => rootOfF s fuel p

/-- The root reached by following `parent` links from `i`. -/
def rootOf (s : Store) (i : Nat) : Nat := rootOfF s (i+1) i

/-- The parent chain starting at `i` (inclusive), child before parent. -/
def chainF (s : Store) : Nat → Nat → List Nat
  | 0, _ => []
  | fuel+1, i =>
    match (obj s i).parentId with
    | none => [i]
    | some p => i :: chainF s fuel p

def chainIncl (s : Store) (i : Nat) : List Nat := chainF s (i+1) i

/-- An `_onNewRoute` invocation: (owner of the handler, route argument). -/
abbrev Ev := Nat × Nat

/-- `Route.didCreateRoute(route)`: invoke `this._onNewRoute(route)`, then
forward to `this.parent` when present.  Every invocation is recorded, the
default no-op included. -/
def didCreateF (s : Store) : Nat → Nat → Nat → List Ev
  | 0, _, _ => []
  | fuel+1, i, arg =>
    match (obj s i).parentId with
    | none => [(i, arg)]
    | some p => (i, arg) :: didCreateF s fuel p arg

def didCreateEvents (s : Store) (i arg : Nat) : List Ev := didCreateF s (i+1) i arg

/-! ## Subtree enumeration -/

/-- The `flatten` worker of the private `allRoutes` getter:
`routes.reduce((result, route) => [...result, route, ...flatten(route.routes)], [])`. -/
def allRoutesF (s : Store) : Nat → Nat → List Nat
  | 0, _ => []
  | fuel+1, i => (obj s i).childIds.flatMap (fun c => c :: allRoutesF s fuel c)

/-- `Route.allRoutes`: the strict descendants of `i` in depth-first,
definition order (the node itself is not included). -/
def allRoutes (s : Store) (i : Nat) : List Nat := allRoutesF s s.length i

/-- `Route.pages`: the descendants with an empty `routes` collection. -/
def pages (s : Store) (i : Nat) : List Nat :=
  (allRoutes s i).filter (fun r => (obj s r).childIds.isEmpty)

/-! ## Mutating operations that can throw -/

/-- The conflict message of the `routes` setter, built like the source's
template literal. -/
def conflictMsg (s : Store) (routeId selfId parentId : Nat) : Str :=
  chars "Cannot add " ++ fullName s routeId ++ chars " to " ++ fullName s selfId ++
    chars ", because it already belongs to " ++ fullName s parentId

/-- The `forEach` body of the `routes` setter: throw when the route already
belongs to a different parent, otherwise run the `parent` setter on it. -/
def setRoutesGo (selfId : Nat) : Store → List Nat → Except Str Store
  | s, [] => .ok s
  | s, r :: rest =>
    match (obj s r).parentId with
    | some p =>
      if p ≠ selfId then .error (conflictMsg s r selfId p)
      else setRoutesGo selfId (setParent s r selfId) rest
    | none => setRoutesGo selfId (setParent s r selfId) rest

/-- The `routes` setter: `this._routes = routes` first, then the checking
`forEach` (so the children list is already replaced when a conflict is
raised, exactly as in the source). -/
def setRoutes (s : Store) (selfId : Nat) (routeIds : List Nat) : Except Str Store :=
  setRoutesGo selfId (modifyObj s selfId (fun o => { o with childIds := routeIds })) routeIds

/-- The `activePath` setter: throws on any route that has a parent (before
touching any state), otherwise stores the value on the root. -/
def setActivePath (s : Store) (i : Nat) (v : Str) : Except Str Store :=
  match (obj s i).parentId with
  | some _ => .error (chars "activePath can only be set on the router, not a child route")
  | none => .ok (modifyObj s i (fun o => { o with activePathVal := some v }))

/-- `Route.onNewRoute(callback)`: replace the single listener (the callback
itself is abstracted to a tag). -/
def onNewRouteReg (s : Store) (i : Nat) (tag : Nat) : Store :=
  modifyObj s i (fun o => { o with listener := some tag })

/-! ## Route definitions and `add`

`RouteDefinition` is mutually inductive with its own list type so that
`add` stays structurally recursive (and therefore kernel-computable). -/

mutual
inductive RouteDef where
  | mk (label : Str) (name : Str) (path : Option Str) (routes : RouteDefs)
inductive RouteDefs where
  | nil
  | cons (d : RouteDef) (ds : RouteDefs)
end

def RouteDef.label : RouteDef → Str | .mk l _ _ _ => l
def RouteDef.name : RouteDef → Str | .mk _ n _ _ => n
def RouteDef.pathOrDefault : RouteDef → Str
  | .mk _ n p _ => match p with | some q => q | none => '/' :: n

/-- The state of `new Route(config)` for a fresh node with no children and
no parent: identity fields set, `_activePath` still undefined, the default
no-op `_onNewRoute`. -/
def freshObj (label name path : Str) : RouteObj :=
  ⟨label, name, path, none, [], none, none⟩

mutual
/-- `Route.add(definition)`: construct the new `Route` (its `path`
defaulting to `"/" + name`, no children, no parent — the constructor's
`this.routes = []` and absent `config.parent` are no-ops on this fresh
object), recursively `add` the nested definitions to the *new* route,
then set `route.parent = this` and fire `this.didCreateRoute(route)`.
Returns the updated store, the new route's id, and the recorded
`_onNewRoute` invocations in order. -/
def add (s : Store) (selfId : Nat) : RouteDef → Store × Nat × List Ev
  | .mk label name path routes =>
    let routeId := s.length
    let s1 := s ++ [freshObj label name (RouteDef.mk label name path routes).pathOrDefault]
    let r2 := addList s1 routeId routes
    let s3 := setParent r2.1 routeId selfId
    (s3, routeId, r2.2 ++ didCreateEvents s3 selfId routeId)
/-- `definitions.map(d => route.add(d))` (also the `Router` constructor's
`definitions.forEach(d => this.add(d))`). -/
def addList (s : Store) (selfId : Nat) : RouteDefs → Store × List Ev
  | .nil => (s, [])
  | .cons d ds =>
    let r1 := add s selfId d
    let r2 := addList r1.1 selfId ds
    (r2.1, r1.2.2 ++ r2.2)
end

/-- The `Router` constructor: a root `Route` with empty `name`, `label`
and `path`, then `add` per top-level definition in order. -/
def buildRouter (ds : RouteDefs) : Store × List Ev :=
  addList [freshObj [] [] []] 0 ds

/-! ## Search and navigation -/

/-- A `find`/`has` criteria record: the keys present on the search object
(`Object.keys`) are the `some` fields. -/
structure Criteria where
  label : Option Str
  name : Option Str
  fullName : Option Str
  path : Option Str
  fullPath : Option Str
  deriving Repr, DecidableEq

def optEq (o : Option Str) (v : Str) : Bool :=
  match o with
  | none => true
  | some w => w == v

/-- `keys.every(key => search[key] === route[key])` for one route. -/
def critPred (s : Store) (r : Nat) (c : Criteria) : Bool :=
  optEq c.label (obj s r).label && optEq c.name (obj s r).name &&
  optEq c.fullName (fullName s r) && optEq c.path (obj s r).path &&
  optEq c.fullPath (fullPath s r)

/-- The five criteria of a node's own fields, as used by the round-trip. -/
def critOf (s : Store) (r : Nat) : Criteria :=
  { label := some (obj s r).label, name := some (obj s r).name,
    fullName := some (fullName s r), path := some (obj s r).path,
    fullPath := some (fullPath s r) }

/-- `Route.find(search)`: first satisfying route of the flattened subtree. -/
def find (s : Store) (i : Nat) (c : Criteria) : Option Nat :=
  (allRoutes s i).find? (fun r => critPred s r c)

/-- `Route.has(search)`: `!!this.find(search)`. -/
def has (s : Store) (i : Nat) (c : Criteria) : Bool := (find s i c).isSome

/-- `Route.routerFor(fullPath)`: first subtree route with that `fullPath`. -/
def routerFor (s : Store) (i : Nat) (fp : Str) : Option Nat :=
  (allRoutes s i).find? (fun r => fullPath s r == fp)

/-- `activePath.replace(/\/+$/, "")`: strip every trailing slash. -/
def stripTrailingSlashes (v : Str) : Str :=
  (v.reverse.dropWhile (fun c => c == '/')).reverse

/-- The `find` callback chain of the `activePage` getter.  The callback
dereferences `this.activePath` lazily: with an unset `activePath` it
crashes (JavaScript `TypeError` on `undefined.replace`) at the first page
it is invoked on — so an empty `pages` list never crashes — and a
candidate containing `':'` makes `matches` itself throw. -/
def findFirstMatch (s : Store) (ap : Option Str) : List Nat → Except Str (Option Nat)
  | [] => .ok none
  | r :: rest =>
    match ap with
    | none => .error (chars "TypeError: cannot read replace of undefined activePath")
    | some v =>
      match matchesPath (fullPath s r) (stripTrailingSlashes v) with
      | .error e => .error e
      | .ok true => .ok (some r)
      | .ok false => findFirstMatch s (some v) rest

/-- `Route.activePage`: the first page whose pattern matches the active
path with trailing slashes stripped. -/
def activePage (s : Store) (i : Nat) : Except Str (Option Nat) :=
  findFirstMatch s (activePath s i) (pages s i)

/-- `Route.previousPage`: locate the page sharing `activePage.fullName`,
then step one index back when possible (`match && currentIndex > 0`). -/
def previousPage (s : Store) (i : Nat) : Except Str (Option Nat) :=
  match activePage s i with
  | .error e => .error e
  | .ok none => .ok none
  | .ok (some a) =>
    match (pages s i).find? (fun r => fullName s r == fullName s a) with
    | none => .ok none
    | some m =>
      let currentIndex := (pages s i).indexOf m
      .ok (if 0 < currentIndex then (pages s i).get? (currentIndex - 1) else none)

/-- `Route.nextPage`: same lookup, stepping forward under the source's
bound check `currentIndex < this.pages.length` (an out-of-range JavaScript
read yields `undefined`, here `none`). -/
def nextPage (s : Store) (i : Nat) : Except Str (Option Nat) :=
  match activePage s i with
  | .error e => .error e
  | .ok none => .ok none
  | .ok (some a) =>
    match (pages s i).find? (fun r => fullName s r == fullName s a) with
    | none => .ok none
    | some m =>
      let currentIndex := (pages s i).indexOf m
      .ok (if currentIndex < (pages s i).length then (pages s i).get? (currentIndex + 1) else none)

/-! ## Well-formed stores

Stores produced by `buildRouter`/`add` satisfy: a parent index is strictly
below its child's, child indices are strictly above their parent's and in
range.  This is what makes every fuel above the index sufficient for the
chain getters and `s.length` sufficient for the subtree walk. -/

def nodeOKb (s : Store) (i : Nat) : Bool :=
  (match (obj s i).parentId with
    | none => true
    | some q => decide (q < i)) &&
  (obj s i).childIds.all (fun c => decide (i < c) && decide (c < s.length))

def WFb (s : Store) : Bool := (List.range s.length).all (nodeOKb s)

/-- Well-formedness as a (decidable) proposition. -/
def WF (s : Store) : Prop := WFb s = true

instance (s : Store) : Decidable (WF s) := inferInstanceAs (Decidable (WFb s = true))

/-! ## Concrete example trees

Small definition lists exercising the operations; they are shared by
witnesses and counterexamples below. -/

/-- One dynamic route, as in the repository's `api.class` definition. -/
def dsClass : RouteDefs :=
  .cons (.mk (chars "Class") (chars "class") (some (chars "/classes/:classSlug")) .nil) .nil

def storeClass : Store := (buildRouter dsClass).1

/-- Two identical top-level definitions (duplicate `name`/`label`). -/
def dsDup : RouteDefs :=
  .cons (.mk (chars "A") (chars "a") none .nil)
    (.cons (.mk (chars "A") (chars "a") none .nil) .nil)

def storeDup : Store := (buildRouter dsDup).1

/-- A parent `p` with two leaf children that share the name `x` (hence the
same `fullName "p.x"`) but carry different explicit paths. -/
def dsPages : RouteDefs :=
  .cons (.mk (chars "P") (chars "p") none
    (.cons (.mk (chars "X1") (chars "x") (some (chars "/y1")) .nil)
      (.cons (.mk (chars "X2") (chars "x") (some (chars "/y2")) .nil) .nil))) .nil

def storePages : Store := (buildRouter dsPages).1

/-- `storePages` after `router.activePath = "/p/y2"` (the second leaf). -/
def storePagesActive : Store :=
  match setActivePath storePages 0 (chars "/p/y2") with
  | .ok t => t
  | .error _ => []

/-- Three distinct top-level leaves. -/
def dsThree : RouteDefs :=
  .cons (.mk (chars "A") (chars "a") none .nil)
    (.cons (.mk (chars "B") (chars "b") none .nil)
      (.cons (.mk (chars "C") (chars "c") none .nil) .nil))

def storeThree : Store := (buildRouter dsThree).1

/-- `storeThree` after `router.activePath = "/b"` (the middle leaf). -/
def storeThreeActive : Store :=
  match setActivePath storeThree 0 (chars "/b") with
  | .ok t => t
  | .error _ => []

/-- A `Router` built from no definitions at all: just the pathless root. -/
def storeEmpty : Store := (buildRouter .nil).1

/-- `storeDup` with a listener registered on the root. -/
def storeListen : Store := onNewRouteReg storeDup 0 7

/-- The amended matching behaviour for the pattern `/classes/:classSlug`:
the candidate is `"/classes/"` followed by a non-empty slash-free run, or —
beyond the claimed semantics — by a possibly-empty slash-free run plus one
final trailing `'/'` that the dynamic segment swallows. -/
def amendedOK (f : Str) : Prop :=
  (∃ t, f = chars "/classes/" ++ t ∧ t ≠ [] ∧ '/' ∉ t) ∨
  (∃ t, f = chars "/classes/" ++ t ++ ['/'] ∧ '/' ∉ t)

/-- The registered-listener firings among a list of recorded `_onNewRoute`
invocations: the invocations whose owner has an `onNewRoute` callback
installed (the default no-op is unobservable). -/
def firedReg (s : Store) (evs : List Ev) : List Ev :=
  evs.filter (fun e => ((obj s e.1).listener).isSome)

/-- The fields other than `parentId`/`childIds` of an object; the tree
surgery done by `add`/`setParent` never touches them. -/
def core (o : RouteObj) : Str × Str × Str × Option Str × Option Nat :=
  (o.label, o.name, o.path, o.activePathVal, o.listener)

/-- The ancestors of `i` from the root down to `i` itself. -/
def ancestors (s : Store) (i : Nat) : List Nat := (chainIncl s i).reverse

/-- Everything `add` guarantees about one call on a valid node: the new
route's id is the old store length; existing nodes keep their identity
fields, parent links and listeners; the new node is parented to `p` with
no listener; the recorded invocations with the new id as argument are
exactly the `didCreateRoute` bubble started at `p`; every recorded
argument is a node created by this call; and well-formedness is
preserved. -/
def AddOK (s : Store) (p : Nat) (d : RouteDef) : Prop :=
  (add s p d).2.1 = s.length ∧
  s.length < (add s p d).1.length ∧
  (∀ i, i < s.length → core (obj (add s p d).1 i) = core (obj s i) ∧
    (obj (add s p d).1 i).parentId = (obj s i).parentId) ∧
  (obj (add s p d).1 s.length).parentId = some p ∧
  (obj (add s p d).1 s.length).listener = none ∧
  ((add s p d).2.2.filter (fun e => e.2 == s.length)) =
    didCreateEvents (add s p d).1 p s.length ∧
  (∀ e ∈ (add s p d).2.2, s.length ≤ e.2) ∧
  (WF s → WF (add s p d).1)

/-- The same guarantees for a whole definition list added to one node. -/
def AddListOK (s : Store) (r : Nat) (ds : RouteDefs) : Prop :=
  s.length ≤ (addList s r ds).1.length ∧
  (∀ i, i < s.length → core (obj (addList s r ds).1 i) = core (obj s i) ∧
    (obj (addList s r ds).1 i).parentId = (obj s i).parentId) ∧
  (∀ e ∈ (addList s r ds).2, s.length ≤ e.2) ∧
  (WF s → WF (addList s r ds).1)

/-! ## Store access lemmas -/

theorem getD_set_self {α : Type} : ∀ (s : List α) (i : Nat) (o d : α), i < s.length →
    (s.set i o).getD i d = o
  | [], i, _, _, h => absurd h (by simp)
  | _ :: _, 0, _, _, _ => rfl
  | _ :: xs, i+1, o, d, h =>
    getD_set_self xs i o d (Nat.lt_of_succ_lt_succ h)

theorem getD_set_other {α : Type} : ∀ (s : List α) (i j : Nat) (o d : α), j ≠ i →
    (s.set i o).getD j d = s.getD j d
  | [], _, _, _, _, _ => rfl
  | _ :: _, 0, 0, _, _, h => absurd rfl h
  | _ :: _, 0, _+1, _, _, _ => rfl
  | _ :: _, _+1, 0, _, _, _ => rfl
  | _ :: xs, i+1, j+1, o, d, h =>
    getD_set_other xs i j o d (fun e => h (congrArg Nat.succ e))

theorem getD_append_lt {α : Type} : ∀ (s t : List α) (i : Nat) (d : α), i < s.length →
    (s ++ t).getD i d = s.getD i d
  | [], _, i, _, h => absurd h (by simp)
  | _ :: _, _, 0, _, _ => rfl
  | _ :: xs, t, i+1, d, h => getD_append_lt xs t i d (Nat.lt_of_succ_lt_succ h)

theorem getD_append_self {α : Type} : ∀ (s : List α) (o d : α),
    (s ++ [o]).getD s.length d = o
  | [], _, _ => rfl
  | _ :: xs, o, d => getD_append_self xs o d

theorem getD_oob {α : Type} : ∀ (s : List α) (i : Nat) (d : α), s.length ≤ i →
    s.getD i d = d
  | [], _, _, _ => rfl
  | _ :: _, 0, _, h => absurd h (by simp)
  | _ :: xs, i+1, d, h => getD_oob xs i d (Nat.le_of_succ_le_succ h)

theorem obj_set_self (s : Store) (i : Nat) (o : RouteObj) (h : i < s.length) :
    obj (s.set i o) i = o := getD_set_self s i o default h

theorem obj_set_other (s : Store) (i j : Nat) (o : RouteObj) (h : j ≠ i) :
    obj (s.set i o) j = obj s j := getD_set_other s i j o default h

theorem obj_append_lt (s t : Store) (i : Nat) (h : i < s.length) :
    obj (s ++ t) i = obj s i := getD_append_lt s t i default h

theorem obj_append_self (s : Store) (o : RouteObj) :
    obj (s ++ [o]) s.length = o := getD_append_self s o default

theorem obj_oob (s : Store) (i : Nat) (h : s.length ≤ i) :
    obj s i = default := getD_oob s i default h

theorem length_modifyObj (s : Store) (i : Nat) (f : RouteObj → RouteObj) :
    (modifyObj s i f).length = s.length := by
  simp [modifyObj]

theorem obj_modify_self (s : Store) (i : Nat) (f : RouteObj → RouteObj) (h : i < s.length) :
    obj (modifyObj s i f) i = f (obj s i) := obj_set_self s i _ h

theorem obj_modify_other (s : Store) (i j : Nat) (f : RouteObj → RouteObj) (h : j ≠ i) :
    obj (modifyObj s i f) j = obj s j := obj_set_other s i j _ h

/-! ## `setParent` frame lemmas -/

theorem length_setParent (s : Store) (c p : Nat) :
    (setParent s c p).length = s.length := by
  unfold setParent
  by_cases h : c ∈ (obj (modifyObj s c (fun o => { o with parentId := some p })) p).childIds <;>
    simp [h, length_modifyObj]

theorem setParent_parentId_self (s : Store) (c p : Nat) (hc : c < s.length) :
    (obj (setParent s c p) c).parentId = some p := by
  unfold setParent
  by_cases h : c ∈ (obj (modifyObj s c (fun o => { o with parentId := some p })) p).childIds
  · simp only [h, if_pos]
    rw [obj_modify_self s c _ hc]
  · simp only [h, if_neg, not_false_iff]
    by_cases hcp : c = p
    · subst hcp
      rw [obj_modify_self _ c _ (by rw [length_modifyObj]; exact hc)]
      rw [obj_modify_self s c _ hc]
    · rw [obj_modify_other _ p c _ hcp]
      rw [obj_modify_self s c _ hc]

theorem setParent_parentId_other (s : Store) (c p j : Nat) (h : j ≠ c) :
    (obj (setParent s c p) j).parentId = (obj s j).parentId := by
  unfold setParent
  by_cases hm : c ∈ (obj (modifyObj s c (fun o => { o with parentId := some p })) p).childIds
  · simp only [hm, if_pos]
    rw [obj_modify_other s c j _ h]
  · simp only [hm, if_neg, not_false_iff]
    by_cases hjp : j = p
    · rw [hjp]
      by_cases hb : p < (modifyObj s c (fun o => { o with parentId := some p })).length
      · rw [obj_modify_self _ p _ hb]
        show (obj (modifyObj s c (fun o => { o with parentId := some p })) p).parentId =
          (obj s p).parentId
        rw [obj_modify_other s c p _ (hjp ▸ h)]
      · rw [length_modifyObj] at hb
        rw [obj_oob _ p (by rw [length_modifyObj, length_modifyObj]; omega)]
        rw [obj_oob s p (by omega)]
    · rw [obj_modify_other _ p j _ hjp, obj_modify_other s c j _ h]

theorem setParent_childIds_other (s : Store) (c p j : Nat) (h : j ≠ p) :
    (obj (setParent s c p) j).childIds = (obj s j).childIds := by
  unfold setParent
  by_cases hm : c ∈ (obj (modifyObj s c (fun o => { o with parentId := some p })) p).childIds
  · simp only [hm, if_pos]
    by_cases hjc : j = c
    · rw [hjc]
      by_cases hb : c < s.length
      · rw [obj_modify_self s c _ hb]
      · rw [obj_oob _ c (by rw [length_modifyObj]; omega), obj_oob s c (by omega)]
    · rw [obj_modify_other s c j _ hjc]
  · simp only [hm, if_neg, not_false_iff]
    rw [obj_modify_other _ p j _ h]
    by_cases hjc : j = c
    · rw [hjc]
      by_cases hb : c < s.length
      · rw [obj_modify_self s c _ hb]
      · rw [obj_oob _ c (by rw [length_modifyObj]; omega), obj_oob s c (by omega)]
    · rw [obj_modify_other s c j _ hjc]

theorem core_modify_parentId (s : Store) (c p : Nat) (j : Nat) :
    core (obj (modifyObj s c (fun o => { o with parentId := some p })) j) = core (obj s j) := by
  by_cases hjc : j = c
  · subst hjc
    by_cases hb : j < s.length
    · rw [obj_modify_self s j _ hb]; rfl
    · rw [obj_oob _ j (by rw [length_modifyObj]; omega), obj_oob s j (by omega)]
  · rw [obj_modify_other s c j _ hjc]

theorem core_modify_childIds (s : Store) (c : Nat) (l : List Nat) (j : Nat) :
    core (obj (modifyObj s c (fun o => { o with childIds := l })) j) = core (obj s j) := by
  by_cases hjc : j = c
  · subst hjc
    by_cases hb : j < s.length
    · rw [obj_modify_self s j _ hb]; rfl
    · rw [obj_oob _ j (by rw [length_modifyObj]; omega), obj_oob s j (by omega)]
  · rw [obj_modify_other s c j _ hjc]

theorem setParent_core (s : Store) (c p j : Nat) :
    core (obj (setParent s c p) j) = core (obj s j) := by
  unfold setParent
  by_cases hm : c ∈ (obj (modifyObj s c (fun o => { o with parentId := some p })) p).childIds
  · simp only [hm, if_pos]
    exact core_modify_parentId s c p j
  · simp only [hm, if_neg, not_false_iff]
    have h1 : core (obj (modifyObj (modifyObj s c (fun o => { o with parentId := some p })) p
        (fun o => { o with childIds := o.childIds ++ [c] })) j) =
        core (obj (modifyObj s c (fun o => { o with parentId := some p })) j) := by
      by_cases hjp : j = p
      · rw [hjp]
        by_cases hb : p < (modifyObj s c (fun o => { o with parentId := some p })).length
        · rw [obj_modify_self _ p _ hb]; rfl
        · rw [obj_oob _ p (by rw [length_modifyObj, length_modifyObj]; rw [length_modifyObj] at hb; omega)]
          rw [obj_oob _ p (by rw [length_modifyObj] at hb ⊢; omega)]
      · rw [obj_modify_other _ p j _ hjp]
    rw [h1, core_modify_parentId s c p j]

/-! ## Well-formedness: introduction and elimination -/

theorem wf_elim (h : WF s) (i : Nat) (hi : i < s.length) :
    (∀ q, (obj s i).parentId = some q → q < i) ∧
      (∀ c, c ∈ (obj s i).childIds → i < c ∧ c < s.length) := by
  have hall := h
  unfold WF WFb at hall
  rw [List.all_eq_true] at hall
  have hnode := hall i (List.mem_range.mpr hi)
  unfold nodeOKb at hnode
  rw [Bool.and_eq_true] at hnode
  obtain ⟨hpar, hch⟩ := hnode
  constructor
  · intro q hq
    rw [hq] at hpar
    simpa using hpar
  · intro c hc
    rw [List.all_eq_true] at hch
    have := hch c hc
    simpa using this

theorem wf_parent (h : WF s) {i q : Nat} (hi : i < s.length)
    (hq : (obj s i).parentId = some q) : q < i :=
  (wf_elim h i hi).1 q hq

theorem wf_child (h : WF s) {i c : Nat} (hi : i < s.length)
    (hc : c ∈ (obj s i).childIds) : i < c ∧ c < s.length :=
  (wf_elim h i hi).2 c hc

theorem wf_intro (s : Store)
    (h : ∀ i, i < s.length →
      (∀ q, (obj s i).parentId = some q → q < i) ∧
        (∀ c, c ∈ (obj s i).childIds → i < c ∧ c < s.length)) : WF s := by
  unfold WF WFb
  rw [List.all_eq_true]
  intro i hi
  rw [List.mem_range] at hi
  obtain ⟨hpar, hch⟩ := h i hi
  unfold nodeOKb
  rw [Bool.and_eq_true]
  constructor
  · cases hq : (obj s i).parentId with
    | none => rfl
    | some q => simpa using hpar q hq
  · rw [List.all_eq_true]
    intro c hc
    have := hch c hc
    simp [this.1, this.2]

/-! ## Fuel stability of the parent-chain getters -/

theorem fullNameF_stable (s : Store) (h : WF s) :
    ∀ i, i < s.length → ∀ f₁ f₂, i < f₁ → i < f₂ →
      fullNameF s f₁ i = fullNameF s f₂ i := by
  intro i
  induction i using Nat.strong_induction_on with
  | _ i ih =>
    intro hi f₁ f₂ h₁ h₂
    obtain ⟨k₁, rfl⟩ := Nat.exists_eq_succ_of_ne_zero (Nat.pos_iff_ne_zero.mp (Nat.lt_of_le_of_lt (Nat.zero_le _) h₁))
    obtain ⟨k₂, rfl⟩ := Nat.exists_eq_succ_of_ne_zero (Nat.pos_iff_ne_zero.mp (Nat.lt_of_le_of_lt (Nat.zero_le _) h₂))
    cases hp : (obj s i).parentId with
    | none => simp [fullNameF, hp]
    | some p =>
      have hpi : p < i := wf_parent h hi hp
      have hps : p < s.length := Nat.lt_trans hpi hi
      have heq := ih p hpi hps k₁ k₂ (by omega) (by omega)
      simp [fullNameF, hp, heq]

theorem fullPathF_stable (s : Store) (h : WF s) :
    ∀ i, i < s.length → ∀ f₁ f₂, i < f₁ → i < f₂ →
      fullPathF s f₁ i = fullPathF s f₂ i := by
  intro i
  induction i using Nat.strong_induction_on with
  | _ i ih =>
    intro hi f₁ f₂ h₁ h₂
    obtain ⟨k₁, rfl⟩ := Nat.exists_eq_succ_of_ne_zero (Nat.pos_iff_ne_zero.mp (Nat.lt_of_le_of_lt (Nat.zero_le _) h₁))
    obtain ⟨k₂, rfl⟩ := Nat.exists_eq_succ_of_ne_zero (Nat.pos_iff_ne_zero.mp (Nat.lt_of_le_of_lt (Nat.zero_le _) h₂))
    cases hp : (obj s i).parentId with
    | none => simp [fullPathF, hp]
    | some p =>
      have hpi : p < i := wf_parent h hi hp
      have hps : p < s.length := Nat.lt_trans hpi hi
      have heq := ih p hpi hps k₁ k₂ (by omega) (by omega)
      simp [fullPathF, hp, heq]

theorem activePathF_stable (s : Store) (h : WF s) :
    ∀ i, i < s.length → ∀ f₁ f₂, i < f₁ → i < f₂ →
      activePathF s f₁ i = activePathF s f₂ i := by
  intro i
  induction i using Nat.strong_induction_on with
  | _ i ih =>
    intro hi f₁ f₂ h₁ h₂
    obtain ⟨k₁, rfl⟩ := Nat.exists_eq_succ_of_ne_zero (Nat.pos_iff_ne_zero.mp (Nat.lt_of_le_of_lt (Nat.zero_le _) h₁))
    obtain ⟨k₂, rfl⟩ := Nat.exists_eq_succ_of_ne_zero (Nat.pos_iff_ne_zero.mp (Nat.lt_of_le_of_lt (Nat.zero_le _) h₂))
    cases hp : (obj s i).parentId with
    | none => simp [activePathF, hp]
    | some p =>
      have hpi : p < i := wf_parent h hi hp
      have hps : p < s.length := Nat.lt_trans hpi hi
      have heq := ih p hpi hps k₁ k₂ (by omega) (by omega)
      simp [activePathF, hp, heq]

theorem rootOfF_stable (s : Store) (h : WF s) :
    ∀ i, i < s.length → ∀ f₁ f₂, i < f₁ → i < f₂ →
      rootOfF s f₁ i = rootOfF s f₂ i := by
  intro i
  induction i using Nat.strong_induction_on with
  | _ i ih =>
    intro hi f₁ f₂ h₁ h₂
    obtain ⟨k₁, rfl⟩ := Nat.exists_eq_succ_of_ne_zero (Nat.pos_iff_ne_zero.mp (Nat.lt_of_le_of_lt (Nat.zero_le _) h₁))
    obtain ⟨k₂, rfl⟩ := Nat.exists_eq_succ_of_ne_zero (Nat.pos_iff_ne_zero.mp (Nat.lt_of_le_of_lt (Nat.zero_le _) h₂))
    cases hp : (obj s i).parentId with
    | none => simp [rootOfF, hp]
    | some p =>
      have hpi : p < i := wf_parent h hi hp
      have hps : p < s.length := Nat.lt_trans hpi hi
      have heq := ih p hpi hps k₁ k₂ (by omega) (by omega)
      simp [rootOfF, hp, heq]

theorem chainF_stable (s : Store) (h : WF s) :
    ∀ i, i < s.length → ∀ f₁ f₂, i < f₁ → i < f₂ →
      chainF s f₁ i = chainF s f₂ i := by
  intro i
  induction i using Nat.strong_induction_on with
  | _ i ih =>
    intro hi f₁ f₂ h₁ h₂
    obtain ⟨k₁, rfl⟩ := Nat.exists_eq_succ_of_ne_zero (Nat.pos_iff_ne_zero.mp (Nat.lt_of_le_of_lt (Nat.zero_le _) h₁))
    obtain ⟨k₂, rfl⟩ := Nat.exists_eq_succ_of_ne_zero (Nat.pos_iff_ne_zero.mp (Nat.lt_of_le_of_lt (Nat.zero_le _) h₂))
    cases hp : (obj s i).parentId with
    | none => simp [chainF, hp]
    | some p =>
      have hpi : p < i := wf_parent h hi hp
      have hps : p < s.length := Nat.lt_trans hpi hi
      have heq := ih p hpi hps k₁ k₂ (by omega) (by omega)
      simp [chainF, hp, heq]

theorem didCreateF_eq_chainF (s : Store) :
    ∀ fuel i arg, didCreateF s fuel i arg = (chainF s fuel i).map (fun j => (j, arg)) := by
  intro fuel
  induction fuel with
  | zero => intro i arg; rfl
  | succ k ih =>
    intro i arg
    simp only [didCreateF, chainF]
    cases (obj s i).parentId with
    | none => rfl
    | some p => simp [ih p arg]

/-! ## The character-level matcher: structure lemmas -/

theorem length_dropWhile_le {α : Type} (p : α → Bool) :
    ∀ l : List α, (l.dropWhile p).length ≤ l.length
  | [] => Nat.le_refl _
  | a :: l => by
    rw [List.dropWhile_cons]
    by_cases h : p a = true
    · simp only [h, if_pos]
      exact Nat.le_succ_of_le (length_dropWhile_le p l)
    · simp only [h]
      simp

theorem afterSlash_length_lt (d : Str) (h : d ≠ []) : (afterSlash d).length < d.length := by
  unfold afterSlash
  have h1 : (d.dropWhile (fun c => !(c == '/'))).length ≤ d.length :=
    length_dropWhile_le _ d
  have h2 : 0 < d.length := List.length_pos.mpr h
  have h3 : ((d.dropWhile (fun c => !(c == '/'))).drop 1).length =
      (d.dropWhile (fun c => !(c == '/'))).length - 1 := List.length_drop 1 _
  omega

theorem get?_zero_some_ne_nil {f : Str} {c : Char} (h : f[0]? = some c) : f ≠ [] := by
  cases f with
  | nil => simp at h
  | cons a l => simp

/-- The fuel plays no role once it exceeds the total length of both
strings: every recursive call of `match` strictly shrinks that total. -/
theorem matchRunF_stable : ∀ (n : Nat) (d f : Str), d.length + f.length ≤ n →
    ∀ f₁ f₂, d.length + f.length < f₁ → d.length + f.length < f₂ →
      matchRunF f₁ d f = matchRunF f₂ d f := by
  intro n
  induction n with
  | zero =>
    intro d f hn f₁ f₂ h₁ h₂
    have hd : d = [] := List.length_eq_zero.mp (by omega)
    have hf : f = [] := List.length_eq_zero.mp (by omega)
    subst hd; subst hf
    obtain ⟨k₁, rfl⟩ := Nat.exists_eq_succ_of_ne_zero (by omega : f₁ ≠ 0)
    obtain ⟨k₂, rfl⟩ := Nat.exists_eq_succ_of_ne_zero (by omega : f₂ ≠ 0)
    simp [matchRunF]
  | succ n ih =>
    intro d f hn f₁ f₂ h₁ h₂
    obtain ⟨k₁, rfl⟩ := Nat.exists_eq_succ_of_ne_zero (by omega : f₁ ≠ 0)
    obtain ⟨k₂, rfl⟩ := Nat.exists_eq_succ_of_ne_zero (by omega : f₂ ≠ 0)
    simp only [matchRunF]
    split_ifs with c1 c2 c3 c4 c5 c6
    · rfl
    · rfl
    · -- dynamic segment, candidate exhausted: pattern shrinks
      have hd : d ≠ [] := get?_zero_some_ne_nil c3.1
      have hlt := afterSlash_length_lt d hd
      exact ih (afterSlash d) [] (by simp; omega) k₁ k₂ (by simp; omega) (by simp; omega)
    · -- inside a dynamic segment: candidate shrinks
      have hf : f ≠ [] := by
        intro he
        exact c3 ⟨c4.1, he⟩
      have hfl : 0 < f.length := List.length_pos.mpr hf
      have : (jsTail f).length = f.length - 1 := List.length_drop 1 f
      exact ih d (jsTail f) (by omega) k₁ k₂ (by omega) (by omega)
    · -- dynamic segment ends at '/': both shrink
      have hd : d ≠ [] := get?_zero_some_ne_nil c5.1
      have hf : f ≠ [] := get?_zero_some_ne_nil c5.2
      have hlt := afterSlash_length_lt d hd
      have hfl : 0 < f.length := List.length_pos.mpr hf
      have : (jsTail f).length = f.length - 1 := List.length_drop 1 f
      exact ih (afterSlash d) (jsTail f) (by omega) k₁ k₂ (by omega) (by omega)
    · -- equal leading characters: both shrink
      have hd : d ≠ [] := c6.1
      have hf : f ≠ [] := by
        intro he
        subst he
        cases d with
        | nil => exact c6.1 rfl
        | cons x l => simp at c6
      have hdl : 0 < d.length := List.length_pos.mpr hd
      have hfl : 0 < f.length := List.length_pos.mpr hf
      have e1 : (jsTail d).length = d.length - 1 := List.length_drop 1 d
      have e2 : (jsTail f).length = f.length - 1 := List.length_drop 1 f
      exact ih (jsTail d) (jsTail f) (by omega) k₁ k₂ (by omega) (by omega)
    · rfl

theorem matchRunF_nil_left (k : Nat) (f : Str) :
    matchRunF (k+1) [] f = decide (f = []) := by
  cases f with
  | nil => simp [matchRunF]
  | cons a l => simp [matchRunF]

/-- Unfolding one literal pattern character `c` (with no `':'` at the
current or next position): the candidate must start with the same
character. -/
theorem litStepA (c : Char) (d f : Str) (fuel : Nat) (hc : c ≠ ':')
    (hd : d[0]? ≠ some ':') :
    matchRunF (fuel+1) (c :: d) f =
      match f with
      | [] => false
      | a :: f2 => if c = a then matchRunF fuel d f2 else false := by
  cases f with
  | nil => simp [matchRunF, hc, hd]
  | cons a f2 =>
    simp only [matchRunF]
    rw [if_neg (by simp), if_neg (by simp [hd]), if_neg (by simp [hc]),
      if_neg (by simp [hc]), if_neg (by simp [hc])]
    by_cases hca : c = a
    · rw [if_pos (by simp [hca]), if_pos hca]
      rfl
    · rw [if_neg (by simp [hca]), if_neg hca]

/-- Unfolding the `"/:"` boundary of the pattern: here the source's guard
`dynamic[1] === ":" && !fixed[1]` rejects any candidate remainder of
length at most one. -/
theorem litStepB (rest f : Str) (fuel : Nat) :
    matchRunF (fuel+1) ('/' :: ':' :: rest) f =
      match f with
      | [] => false
      | [_] => false
      | a :: b :: f2 => if '/' = a then matchRunF fuel (':' :: rest) (b :: f2) else false := by
  cases f with
  | nil => simp [matchRunF]
  | cons a f1 =>
    cases f1 with
    | nil => simp [matchRunF]
    | cons b f2 =>
      simp only [matchRunF]
      rw [if_neg (by simp), if_neg (by simp), if_neg (by simp), if_neg (by simp),
        if_neg (by simp)]
      by_cases hca : '/' = a
      · rw [if_pos (by simp [← hca]), if_pos hca]
        rfl
      · rw [if_neg (fun hand => hca (by simpa using hand.2)), if_neg hca]

/-- A colon-free literal prefix of the pattern is consumed character by
character. -/
theorem litPrefix (lit : Str) (hlit : ':' ∉ lit) (d0 : Str) (h0 : d0[0]? ≠ some ':') :
    ∀ f fuel, matchRunF (lit.length + fuel) (lit ++ d0) f =
      if f.take lit.length = lit then matchRunF fuel d0 (f.drop lit.length) else false := by
  induction lit with
  | nil =>
    intro f fuel
    simp
  | cons c lit2 ih =>
    intro f fuel
    have hc : c ≠ ':' := fun he => hlit (by rw [he]; exact List.mem_cons_self _ _)
    have hlit2 : ':' ∉ lit2 := fun hm => hlit (List.mem_cons_of_mem _ hm)
    have hd : (lit2 ++ d0)[0]? ≠ some ':' := by
      cases lit2 with
      | nil => simpa using h0
      | cons x l =>
        have hx : x ≠ ':' := fun he => hlit (by rw [he]; exact List.mem_cons_of_mem _ (List.mem_cons_self _ _))
        simpa using hx
    have hlen : (c :: lit2).length + fuel = (lit2.length + fuel) + 1 := by
      simp
      omega
    rw [hlen, List.cons_append, litStepA c (lit2 ++ d0) f (lit2.length + fuel) hc hd]
    cases f with
    | nil =>
      rw [if_neg (by simp)]
    | cons a f2 =>
      show (if c = a then matchRunF (lit2.length + fuel) (lit2 ++ d0) f2 else false) = _
      by_cases hca : c = a
      · subst hca
        rw [if_pos rfl, ih hlit2 f2 fuel]
        simp only [List.length_cons, List.take_succ_cons, List.drop_succ_cons,
          List.cons.injEq, true_and]
      · rw [if_neg hca]
        rw [if_neg (by
          simp only [List.length_cons, List.take_succ_cons, List.cons.injEq]
          intro he
          exact hca he.1.symm)]

/-- `dynEndB` ignores a leading non-slash character. -/
theorem dynEnd_cons (a : Char) (f : Str) (h : a ≠ '/') :
    dynEndB (a :: f) = dynEndB f := by
  cases f with
  | nil => simp [dynEndB, noSlashB, h]
  | cons b f2 =>
    have hb : (a == '/') = false := by simp [h]
    simp [dynEndB, noSlashB, List.dropLast_cons₂, List.getLast?_cons_cons, hb]

/-- `dynEndB` after a leading `'/'`: true exactly for the singleton slash. -/
theorem dynEnd_slash_cons (f : Str) :
    dynEndB ('/' :: f) = decide (f = []) := by
  cases f with
  | nil => simp [dynEndB, noSlashB]
  | cons b f2 => simp [dynEndB, noSlashB]

theorem noSlashB_iff (t : Str) : noSlashB t = true ↔ '/' ∉ t := by
  unfold noSlashB
  rw [List.all_eq_true]
  constructor
  · intro h hm
    have := h '/' hm
    simp at this
  · intro h c hc
    have : c ≠ '/' := fun he => h (he ▸ hc)
    simp [this]

/-- The dynamic tail `":classSlug"`: on any candidate remainder the walk
computes `dynEndB`. -/
theorem dynSeg (d2 : Str) (hd2c : d2[0]? ≠ some ':') (hd2s : '/' ∉ d2) :
    ∀ f n, f.length ≤ n → matchRunF (n + 2) (':' :: d2) f = dynEndB f := by
  have hafter : afterSlash (':' :: d2) = [] := by
    unfold afterSlash
    have : (':' :: d2).dropWhile (fun c => !(c == '/')) = [] := by
      rw [List.dropWhile_eq_nil_iff]
      intro x hx
      have : x ≠ '/' := by
        intro he
        subst he
        rcases List.mem_cons.mp hx with h | h
        · simp at h
        · exact hd2s h
      simp [this]
    rw [this]
    rfl
  intro f
  induction f with
  | nil =>
    intro n hn
    have h1 : n + 2 = (n + 1) + 1 := rfl
    rw [h1]
    simp only [matchRunF]
    rw [if_neg (by simp), if_neg (by simp [hd2c]), if_pos (by simp)]
    rw [hafter]
    cases n with
    | zero => simp [matchRunF, dynEndB, noSlashB]
    | succ m =>
      rw [matchRunF_nil_left]
      simp [dynEndB, noSlashB]
  | cons a f2 ih =>
    intro n hn
    have h1 : n + 2 = (n + 1) + 1 := rfl
    rw [h1]
    simp only [matchRunF]
    rw [if_neg (by simp), if_neg (by simp [hd2c]), if_neg (by simp)]
    by_cases ha : a = '/'
    · subst ha
      rw [if_neg (by simp), if_pos (by simp)]
      show matchRunF (n+1) (afterSlash (':' :: d2)) (jsTail ('/' :: f2)) = dynEndB ('/' :: f2)
      rw [hafter, dynEnd_slash_cons]
      show matchRunF (n+1) [] f2 = decide (f2 = [])
      exact matchRunF_nil_left n f2
    · rw [if_pos (by simp [ha])]
      show matchRunF (n+1) (':' :: d2) f2 = dynEndB (a :: f2)
      rw [dynEnd_cons a f2 ha]
      have hf2 : f2.length ≤ n - 1 := by
        have : (a :: f2).length = f2.length + 1 := rfl
        omega
      have hn1 : n - 1 + 2 = n + 1 := by
        have : (a :: f2).length = f2.length + 1 := rfl
        omega
      rw [← hn1]
      exact ih (n - 1) hf2

/-- Full characterization of the source walk on the repository's one
dynamic pattern. -/
theorem matchRun_classes (f : Str) :
    matchRun (chars "/classes/:classSlug") f = true ↔
      ∃ t, f = chars "/classes/" ++ t ∧ t ≠ [] ∧ dynEndB t = true := by
  have key : matchRun (chars "/classes/:classSlug") f =
      if f.take 8 = chars "/classes" then
        (match f.drop 8 with
         | [] => false
         | [_] => false
         | a :: b :: f2 => if '/' = a then dynEndB (b :: f2) else false)
      else false := by
    unfold matchRun
    have h2 : (chars "/classes/:classSlug").length + f.length + 1 =
        (chars "/classes").length + (f.length + 12) := by
      show 19 + f.length + 1 = 8 + (f.length + 12)
      omega
    have h1 : chars "/classes/:classSlug" = chars "/classes" ++ chars "/:classSlug" := rfl
    rw [h2, h1]
    rw [litPrefix (chars "/classes") (by decide) (chars "/:classSlug") (by decide) f
      (f.length + 12)]
    have h8 : (chars "/classes").length = 8 := rfl
    rw [h8]
    by_cases htake : f.take 8 = chars "/classes"
    · rw [if_pos htake, if_pos htake]
      have h3 : chars "/:classSlug" = '/' :: ':' :: chars "classSlug" := rfl
      have h4 : f.length + 12 = (f.length + 11) + 1 := rfl
      rw [h3, h4, litStepB (chars "classSlug") (f.drop 8) (f.length + 11)]
      cases h8f : f.drop 8 with
      | nil => rfl
      | cons a f1 =>
        cases f1 with
        | nil => rfl
        | cons b f2 =>
          show (if '/' = a then matchRunF (f.length + 11) (':' :: chars "classSlug") (b :: f2)
            else false) = (if '/' = a then dynEndB (b :: f2) else false)
          by_cases ha : '/' = a
          · rw [if_pos ha, if_pos ha]
            have hlen : (b :: f2).length ≤ f.length + 9 := by
              have hd8 : (f.drop 8).length ≤ f.length := by
                rw [List.length_drop]
                omega
              rw [h8f] at hd8
              simp at hd8 ⊢
              omega
            have h5 : f.length + 11 = (f.length + 9) + 2 := rfl
            rw [h5]
            exact dynSeg (chars "classSlug") (by decide) (by decide) (b :: f2)
              (f.length + 9) hlen
          · rw [if_neg ha, if_neg ha]
    · rw [if_neg htake, if_neg htake]
  rw [key]
  constructor
  · intro h
    by_cases htake : f.take 8 = chars "/classes"
    · rw [if_pos htake] at h
      cases h8f : f.drop 8 with
      | nil => rw [h8f] at h; simp at h
      | cons a f1 =>
        cases f1 with
        | nil => rw [h8f] at h; simp at h
        | cons b f2 =>
          rw [h8f] at h
          have h2 : (if '/' = a then dynEndB (b :: f2) else false) = true := h
          by_cases ha : '/' = a
          · refine ⟨b :: f2, ?_, by simp, ?_⟩
            · have := List.take_append_drop 8 f
              rw [htake, h8f, ← ha] at this
              rw [← this]
              rfl
            · rw [if_pos ha] at h2
              exact h2
          · rw [if_neg ha] at h2
            simp at h2
    · rw [if_neg htake] at h
      simp at h
  · rintro ⟨t, hft, htne, hdyn⟩
    have hsplit : f = chars "/classes" ++ ('/' :: t) := by
      rw [hft]
      rfl
    have htake : f.take 8 = chars "/classes" := by
      rw [hsplit]
      have : (8 : Nat) = (chars "/classes").length := rfl
      rw [this, List.take_left]
    have hdrop : f.drop 8 = '/' :: t := by
      rw [hsplit]
      have : (8 : Nat) = (chars "/classes").length := rfl
      rw [this, List.drop_left]
    rw [if_pos htake, hdrop]
    cases t with
    | nil => exact absurd rfl htne
    | cons b f2 =>
      simpa using hdyn

/-- Claim C1 (amended): for a route whose `fullPath` is
`/classes/:classSlug`, `matches` on a candidate without `':'` returns true
iff the candidate is `"/classes/"` followed by a non-empty slash-free run,
**or** (beyond the spec's one-or-more semantics) `"/classes/"` followed by
a possibly-empty slash-free run and one final `'/'` — the walk lets the
trailing dynamic segment also swallow a single trailing slash, and accepts
an empty run before it.  The claim's three concrete examples are unchanged. -/
theorem c1_classSlug_matching_amended (fp f : Str)
    (hfp : fp = chars "/classes/:classSlug") (hf : ':' ∉ f) :
    matchesPath fp f = .ok true ↔ amendedOK f := by
  subst hfp
  unfold matchesPath
  rw [if_neg hf]
  rw [show (Except.ok (matchRun (chars "/classes/:classSlug") f) =
      (Except.ok true : Except Str Bool)) ↔
      matchRun (chars "/classes/:classSlug") f = true from by
    constructor
    · intro h; exact Except.ok.inj h
    · intro h; rw [h]]
  rw [matchRun_classes f]
  constructor
  · rintro ⟨t, hft, htne, hdyn⟩
    have hcases : noSlashB t = true ∨ (noSlashB t.dropLast = true ∧ t.getLast? = some '/') := by
      simpa [dynEndB] using hdyn
    rcases hcases with h | ⟨hdl, hlast2⟩
    · exact Or.inl ⟨t, hft, htne, (noSlashB_iff t).mp h⟩
    · have hgl : t.getLast htne = '/' := by
        rw [List.getLast?_eq_getLast t htne] at hlast2
        exact Option.some.inj hlast2
      have hrec : t.dropLast ++ ['/'] = t := by
        have := List.dropLast_append_getLast htne
        rw [hgl] at this
        exact this
      refine Or.inr ⟨t.dropLast, ?_, (noSlashB_iff t.dropLast).mp hdl⟩
      have hs : chars "/classes/" ++ t = chars "/classes/" ++ t.dropLast ++ ['/'] := by
        rw [List.append_assoc, hrec]
      exact hft.trans hs
  · rintro (⟨t, hft, htne, hts⟩ | ⟨t, hft, hts⟩)
    · refine ⟨t, hft, htne, ?_⟩
      simp [dynEndB, (noSlashB_iff t).mpr hts]
    · refine ⟨t ++ ['/'], by rw [hft, List.append_assoc], by simp, ?_⟩
      simp [dynEndB, List.dropLast_concat, List.getLast?_concat,
        (noSlashB_iff t).mpr hts]

/-- Witness for C1: the pattern accepts `/classes/server`. -/
theorem c1_classSlug_matching_witness :
    (':' ∉ chars "/classes/server") ∧
    matchesPath (chars "/classes/:classSlug") (chars "/classes/server") = .ok true :=
  ⟨by decide, (c1_classSlug_matching_amended _ _ rfl (by decide)).mpr
    (Or.inl ⟨chars "server", rfl, by decide, by decide⟩)⟩

/-- Counterexample for C1 as stated: the route built from the repository's
`api.class` definition has `fullPath = "/classes/:classSlug"`; on the
colon-free candidate `"/classes/server/"` its `matches` returns `true`,
while the spec's claimed run semantics (`specConsumes`, fixed runs
character-for-character, dynamic runs one-or-more characters up to the
next `/`, full consumption of both strings) rejects it — so the claimed
equivalence fails. -/
theorem c1_classSlug_matching_cex :
    fullPath storeClass 1 = chars "/classes/:classSlug" ∧
    (':' ∉ chars "/classes/server/") ∧
    matchesPath (fullPath storeClass 1) (chars "/classes/server/") = .ok true ∧
    specConsumes (fullPath storeClass 1) (chars "/classes/server/") = false :=
  ⟨by decide, by decide, rfl, by decide⟩

/-- Claim C8: `matches` raises the invalid-argument error exactly when the
candidate contains the dynamic-segment marker `':'` (and then produces no
boolean result). -/
theorem c8_matches_error_iff_dynamic (fp pth : Str) :
    (∃ e, matchesPath fp pth = .error e) ↔ ':' ∈ pth := by
  unfold matchesPath
  by_cases h : ':' ∈ pth
  · rw [if_pos h]
    exact ⟨fun _ => h, fun _ => ⟨_, rfl⟩⟩
  · rw [if_neg h]
    constructor
    · rintro ⟨e, he⟩
      simp at he
    · intro hc
      exact absurd hc h

/-! ## Frame lemmas for `fullName` under bookkeeping mutations -/

theorem modify_childIds_parentId (s : Store) (c : Nat) (l : List Nat) (j : Nat) :
    (obj (modifyObj s c (fun o => { o with childIds := l })) j).parentId =
      (obj s j).parentId := by
  by_cases hjc : j = c
  · rw [hjc]
    by_cases hb : c < s.length
    · rw [obj_modify_self s c _ hb]
    · rw [obj_oob _ c (by rw [length_modifyObj]; omega), obj_oob s c (by omega)]
  · rw [obj_modify_other s c j _ hjc]

/-- `fullName` only reads `parentId` and `name`: stores agreeing on those
two fields compute the same names at every fuel. -/
theorem fullNameF_congr (s s2 : Store)
    (h : ∀ j, (obj s2 j).parentId = (obj s j).parentId ∧ (obj s2 j).name = (obj s j).name) :
    ∀ fuel i, fullNameF s2 fuel i = fullNameF s fuel i := by
  intro fuel
  induction fuel with
  | zero => intro i; rfl
  | succ k ih =>
    intro i
    simp only [fullNameF, (h i).1, (h i).2]
    cases (obj s i).parentId with
    | none => rfl
    | some p => simp [ih p]

/-- Claim C5 (amended): re-parenting through the `routes` setter raises
the conflict error, with the message naming the route, the attempted
parent and the current parent by their full names; re-parenting directly
through the `parent` setter raises nothing and silently installs the new
back reference (the source setter has no conflict check). -/
theorem c5_conflict_amended (s : Store) (selfId r : Nat) (rest : List Nat) (p q : Nat)
    (hr : r < s.length) (hp : (obj s r).parentId = some p) (hne : p ≠ selfId) :
    setRoutes s selfId (r :: rest) =
      .error (chars "Cannot add " ++ fullName s r ++ chars " to " ++ fullName s selfId ++
        chars ", because it already belongs to " ++ fullName s p) ∧
    (obj (setParent s r q) r).parentId = some q := by
  constructor
  · unfold setRoutes
    have hframe : ∀ j, (obj (modifyObj s selfId (fun o => { o with childIds := r :: rest })) j).parentId =
        (obj s j).parentId ∧
        (obj (modifyObj s selfId (fun o => { o with childIds := r :: rest })) j).name =
        (obj s j).name := by
      intro j
      refine ⟨modify_childIds_parentId s selfId _ j, ?_⟩
      have := core_modify_childIds s selfId (r :: rest) j
      exact congrArg (fun x => x.2.1) this
    have hname : ∀ j, fullName (modifyObj s selfId (fun o => { o with childIds := r :: rest })) j =
        fullName s j := by
      intro j
      unfold fullName
      exact fullNameF_congr s _ hframe (j+1) j
    simp only [setRoutesGo, (hframe r).1, hp]
    rw [if_pos hne]
    unfold conflictMsg
    rw [hname r, hname selfId, hname p]
  · exact setParent_parentId_self s r q hr

/-- Witness for C5: in `storeDup` route `1` already belongs to the root,
so handing it to route `2` through the `routes` setter raises the
conflict, while the raw `parent` setter silently re-parents it. -/
theorem c5_conflict_witness :
    (1 < storeDup.length) ∧ ((obj storeDup 1).parentId = some 0) ∧ (0 ≠ 2) ∧
    (setRoutes storeDup 2 [1] =
      .error (chars "Cannot add " ++ fullName storeDup 1 ++ chars " to " ++
        fullName storeDup 2 ++ chars ", because it already belongs to " ++
        fullName storeDup 0) ∧
      (obj (setParent storeDup 1 2) 1).parentId = some 2) :=
  ⟨by decide, by decide, by decide,
    c5_conflict_amended storeDup 2 1 [] 0 2 (by decide) (by decide) (by decide)⟩

/-- Counterexample for C5 as stated: node `2` of `storePages` belongs to
node `1`; assigning it as a child of the root through the `parent` setter
(`route.parent = router`) raises no error at all — the setter is total —
and the state is silently updated: the claim cites the `parent` setter's
lines, but only the `routes` setter performs the conflict check. -/
theorem c5_conflict_cex :
    (obj storePages 2).parentId = some 1 ∧
    (obj (setParent storePages 2 0) 2).parentId = some 0 ∧
    (obj (setParent storePages 2 0) 0).childIds = [1, 2] :=
  ⟨by decide, by decide, by decide⟩

/-! ## `activePath`: root delegation -/

/-- Reading `activePath` anywhere returns the root's stored value. -/
theorem activePath_delegates (s : Store) (hwf : WF s) :
    ∀ i, i < s.length → activePath s i = (obj s (rootOf s i)).activePathVal := by
  intro i
  induction i using Nat.strong_induction_on with
  | _ i ih =>
    intro hi
    unfold activePath rootOf
    cases hp : (obj s i).parentId with
    | none => simp [activePathF, rootOfF, hp]
    | some p =>
      have hpi : p < i := wf_parent hwf hi hp
      have hps : p < s.length := Nat.lt_trans hpi hi
      simp only [activePathF, rootOfF, hp]
      rw [activePathF_stable s hwf p hps i (p+1) (by omega) (by omega),
        rootOfF_stable s hwf p hps i (p+1) (by omega) (by omega)]
      exact ih p hpi hps

/-- Claim C7: assigning `activePath` on a node with a parent throws the
invalid-operation error before touching any state (the error carries no
successor store); assigning on a root succeeds and only stores the value
there; and reading `activePath` on any node returns the root's stored
value. -/
theorem c7_activePath_root_only (s : Store) (i : Nat) (v : Str)
    (hwf : WF s) (hi : i < s.length) :
    ((obj s i).parentId ≠ none → setActivePath s i v =
      .error (chars "activePath can only be set on the router, not a child route")) ∧
    ((obj s i).parentId = none → setActivePath s i v =
      .ok (modifyObj s i (fun o => { o with activePathVal := some v }))) ∧
    activePath s i = (obj s (rootOf s i)).activePathVal := by
  refine ⟨?_, ?_, activePath_delegates s hwf i hi⟩
  · intro hne
    unfold setActivePath
    cases hp : (obj s i).parentId with
    | none => exact absurd hp hne
    | some q => rfl
  · intro hnone
    unfold setActivePath
    rw [hnone]

/-- Witness for C7 at a child and at the root of `storePages`. -/
theorem c7_activePath_root_only_witness :
    WF storePagesActive ∧ 2 < storePagesActive.length ∧
    ((obj storePagesActive 2).parentId ≠ none →
      setActivePath storePagesActive 2 (chars "/x") =
        .error (chars "activePath can only be set on the router, not a child route")) ∧
    activePath storePagesActive 2 = (obj storePagesActive (rootOf storePagesActive 2)).activePathVal :=
  ⟨by decide, by decide,
    (c7_activePath_root_only storePagesActive 2 (chars "/x") (by decide) (by decide)).1,
    (c7_activePath_root_only storePagesActive 2 (chars "/x") (by decide) (by decide)).2.2⟩

/-! ## `activePage` totality -/

/-- Stripping trailing slashes introduces no new characters. -/
theorem stripTrailingSlashes_subset (v : Str) (c : Char)
    (h : c ∈ stripTrailingSlashes v) : c ∈ v := by
  unfold stripTrailingSlashes at h
  rw [List.mem_reverse] at h
  rw [← List.mem_reverse]
  exact (List.dropWhile_sublist _).subset h

/-- Claim C9 (amended): on a root with at least one page, reading
`activePage` with a never-assigned `activePath` fails (the `find` callback
dereferences the undefined value); with no pages it returns nothing
without failing.  Once `activePath` holds a string that contains no `':'`,
the read is total. -/
theorem c9_activePage_unset_amended (s : Store) (r : Nat)
    (hroot : (obj s r).parentId = none) :
    ((obj s r).activePathVal = none → pages s r ≠ [] →
      activePage s r = .error (chars "TypeError: cannot read replace of undefined activePath")) ∧
    (∀ v, (obj s r).activePathVal = some v → ':' ∉ v →
      ∃ o, activePage s r = .ok o) := by
  have hap : activePath s r = (obj s r).activePathVal := by
    unfold activePath
    simp [activePathF, hroot]
  constructor
  · intro hnone hne
    unfold activePage
    rw [hap, hnone]
    cases hp : pages s r with
    | nil => exact absurd hp hne
    | cons a l => rfl
  · intro v hv hcolon
    unfold activePage
    rw [hap, hv]
    have hcand : ':' ∉ stripTrailingSlashes v :=
      fun hm => hcolon (stripTrailingSlashes_subset v ':' hm)
    have key : ∀ l : List Nat, ∃ o, findFirstMatch s (some v) l = .ok o := by
      intro l
      induction l with
      | nil => exact ⟨none, rfl⟩
      | cons a rest ih =>
        cases hb : matchRun (fullPath s a) (stripTrailingSlashes v) with
        | true =>
          refine ⟨some a, ?_⟩
          simp only [findFirstMatch]
          unfold matchesPath
          rw [if_neg hcand, hb]
        | false =>
          obtain ⟨o, ho⟩ := ih
          refine ⟨o, ?_⟩
          simp only [findFirstMatch]
          unfold matchesPath
          rw [if_neg hcand, hb]
          exact ho
    exact key (pages s r)

/-- Witness for C9: the root of `storePagesActive` has a colon-free
`activePath`, so its `activePage` read succeeds. -/
theorem c9_activePage_unset_witness :
    (obj storePagesActive 0).parentId = none ∧
    (obj storePagesActive 0).activePathVal = some (chars "/p/y2") ∧
    (∃ o, activePage storePagesActive 0 = .ok o) :=
  ⟨by decide, by decide,
    (c9_activePage_unset_amended storePagesActive 0 (by decide)).2
      (chars "/p/y2") (by decide) (by decide)⟩

/-- Counterexample for C9 as stated: a `Router` built from no definitions
has an unset `activePath`, yet reading `activePage` does **not** fail — it
returns nothing — because the `find` callback that would dereference the
undefined value is never invoked on an empty `pages` list. -/
theorem c9_activePage_unset_cex :
    (obj storeEmpty 0).parentId = none ∧
    (obj storeEmpty 0).activePathVal = none ∧
    pages storeEmpty 0 = [] ∧
    activePage storeEmpty 0 = .ok none :=
  ⟨by decide, by decide, by decide, rfl⟩

/-! ## The subtree walk visits strict descendants only -/

theorem allRoutesF_mem_gt (s : Store) (hwf : WF s) :
    ∀ fuel i, i < s.length → ∀ m, m ∈ allRoutesF s fuel i → i < m ∧ m < s.length := by
  intro fuel
  induction fuel with
  | zero =>
    intro i hi m hm
    simp [allRoutesF] at hm
  | succ k ih =>
    intro i hi m hm
    simp only [allRoutesF] at hm
    rw [List.mem_flatMap] at hm
    obtain ⟨c, hc, hm2⟩ := hm
    have hcb := wf_child hwf hi hc
    rcases List.mem_cons.mp hm2 with rfl | hm3
    · exact hcb
    · have := ih c hcb.2 m hm3
      exact ⟨Nat.lt_trans hcb.1 this.1, this.2⟩

theorem self_not_mem_allRoutes (s : Store) (hwf : WF s) (r : Nat) (hr : r < s.length) :
    r ∉ allRoutes s r := by
  intro hm
  exact absurd (allRoutesF_mem_gt s hwf s.length r hr r hm).1 (Nat.lt_irrefl r)

/-- Claim C10: `pages`, `find`, `has` and `routerFor` range only over the
strict descendants of the receiver, never the receiver itself: a leaf's
`pages` is empty; when the receiver is the only node of its subtree-plus-
itself satisfying the criteria, `find` returns nothing and `has` is false;
and `routerFor` at the receiver's own `fullPath` returns nothing unless a
strict descendant shares that path. -/
theorem c10_strict_descendants (s : Store) (r : Nat) (hwf : WF s) (hr : r < s.length) :
    ((obj s r).childIds = [] → pages s r = []) ∧
    r ∉ allRoutes s r ∧
    (∀ c : Criteria, critPred s r c = true →
      (∀ m, m ∈ allRoutes s r → critPred s m c = true → m = r) →
      find s r c = none ∧ has s r c = false) ∧
    ((∀ m, m ∈ allRoutes s r → fullPath s m = fullPath s r → m = r) →
      routerFor s r (fullPath s r) = none) := by
  have hnot : r ∉ allRoutes s r := self_not_mem_allRoutes s hwf r hr
  refine ⟨?_, hnot, ?_, ?_⟩
  · intro hc
    unfold pages allRoutes
    obtain ⟨k, hk⟩ : ∃ k, s.length = k + 1 := ⟨s.length - 1, by omega⟩
    rw [hk]
    simp [allRoutesF, hc]
  · intro c hrc huniq
    have hall : ∀ m ∈ allRoutes s r, ¬ critPred s m c = true := by
      intro m hm hcm
      exact absurd ((huniq m hm hcm) ▸ hm) hnot
    have hfind : find s r c = none := by
      unfold find
      exact List.find?_eq_none.mpr hall
    exact ⟨hfind, by unfold has; rw [hfind]; rfl⟩
  · intro huniq
    unfold routerFor
    apply List.find?_eq_none.mpr
    intro m hm hbeq
    exact absurd ((huniq m hm (by simpa using hbeq)) ▸ hm) hnot

/-- Witness for C10 at the leaf `2` of `storePages`. -/
theorem c10_strict_descendants_witness :
    WF storePages ∧ 2 < storePages.length ∧
    ((obj storePages 2).childIds = [] → pages storePages 2 = []) ∧
    2 ∉ allRoutes storePages 2 :=
  ⟨by decide, by decide,
    (c10_strict_descendants storePages 2 (by decide) (by decide)).1,
    (c10_strict_descendants storePages 2 (by decide) (by decide)).2.1⟩

/-! ## `find?` / `indexOf` at a known index -/

theorem find?_first {α : Type} (p : α → Bool) :
    ∀ (l : List α) (i : Nat) (x : α), l.get? i = some x → p x = true →
      (∀ j, j < i → ∀ y, l.get? j = some y → p y = false) → l.find? p = some x := by
  intro l
  induction l with
  | nil =>
    intro i x hx _ _
    simp at hx
  | cons a l2 ih =>
    intro i x hx hpx hprev
    cases i with
    | zero =>
      have hax : a = x := Option.some.inj hx
      rw [List.find?_cons_of_pos _ (by rw [hax]; exact hpx)]
      rw [hax]
    | succ j =>
      have hpa : p a = false := hprev 0 (Nat.succ_pos j) a rfl
      rw [List.find?_cons_of_neg _ (by simp [hpa])]
      exact ih j x hx hpx (fun k hk y hy => hprev (k+1) (Nat.succ_lt_succ hk) y hy)

theorem indexOf_first {α : Type} [BEq α] [LawfulBEq α] :
    ∀ (l : List α) (i : Nat) (x : α), l.get? i = some x →
      (∀ j, j < i → ∀ y, l.get? j = some y → y ≠ x) → l.indexOf x = i := by
  intro l
  induction l with
  | nil =>
    intro i x hx _
    simp at hx
  | cons a l2 ih =>
    intro i x hx hprev
    cases i with
    | zero =>
      have hax : a = x := Option.some.inj hx
      unfold List.indexOf
      rw [List.findIdx_cons]
      simp [hax]
    | succ j =>
      have hne : a ≠ x := hprev 0 (Nat.succ_pos j) a rfl
      unfold List.indexOf
      rw [List.findIdx_cons]
      have hba : (a == x) = false := by simp [hne]
      simp only [hba, cond_false]
      have := ih j x hx (fun k hk y hy => hprev (k+1) (Nat.succ_lt_succ hk) y hy)
      unfold List.indexOf at this
      omega

/-- Claim C3 (amended): when the active page `P` sits at index `i` of the
receiver's `pages` and no earlier page shares `P`'s `fullName`, the
navigation getters step by index: `previousPage` is nothing at `i = 0` and
`pages[i-1]` otherwise, `nextPage` is `pages[i+1]`, which is nothing at
the last index (the source's lax bound check `currentIndex < length` reads
one past the end, and the out-of-range read itself yields nothing). -/
theorem c3_prev_next_amended (s : Store) (r P i : Nat)
    (hroot : (obj s r).parentId = none)
    (hap : activePage s r = .ok (some P))
    (hPi : (pages s r).get? i = some P)
    (hdist : ∀ j, j < i → ∀ q, (pages s r).get? j = some q →
      fullName s q ≠ fullName s P) :
    previousPage s r = .ok (if i = 0 then none else (pages s r).get? (i - 1)) ∧
    nextPage s r = .ok ((pages s r).get? (i + 1)) := by
  have hfind : (pages s r).find? (fun q => fullName s q == fullName s P) = some P := by
    apply find?_first _ _ i P hPi (by simp)
    intro j hj y hy
    have := hdist j hj y hy
    simp [this]
  have hidx : (pages s r).indexOf P = i := by
    apply indexOf_first _ i P hPi
    intro j hj y hy he
    exact hdist j hj y hy (by rw [he])
  have hlt : i < (pages s r).length := by
    by_contra hge
    rw [List.get?_eq_none.mpr (by omega)] at hPi
    simp at hPi
  constructor
  · simp only [previousPage, hap, hfind, hidx]
    by_cases h0 : i = 0
    · simp [h0]
    · rw [if_pos (by omega), if_neg h0]
  · simp only [nextPage, hap, hfind, hidx]
    rw [if_pos hlt]

/-- Witness for C3 at the interior page `2` (index 1 of three pages). -/
theorem c3_prev_next_witness :
    (obj storeThreeActive 0).parentId = none ∧
    activePage storeThreeActive 0 = .ok (some 2) ∧
    (pages storeThreeActive 0).get? 1 = some 2 ∧
    (previousPage storeThreeActive 0 =
        .ok (if (1 : Nat) = 0 then none else (pages storeThreeActive 0).get? 0) ∧
      nextPage storeThreeActive 0 = .ok ((pages storeThreeActive 0).get? 2)) := by
  refine ⟨by decide, rfl, by decide, ?_⟩
  apply c3_prev_next_amended storeThreeActive 0 2 1 (by decide) rfl (by decide)
  intro j hj q hq
  have hj0 : j = 0 := by omega
  subst hj0
  have hc : (pages storeThreeActive 0).get? 0 = some 1 := by decide
  rw [hc] at hq
  have hq1 : q = 1 := (Option.some.inj hq).symm
  subst hq1
  decide

/-- Counterexample for C3 as stated: in `storePagesActive` the two pages
share the `fullName` `"p.x"` but have different paths; the active page is
the one at the **last** index 1, so the claim requires `nextPage` to be
nothing — yet the code's `find`-by-`fullName` locates the earlier
duplicate at index 0 and steps from there, returning the active page
itself; `previousPage` likewise returns nothing instead of the page
before the active one. -/
theorem c3_prev_next_cex :
    pages storePagesActive 0 = [2, 3] ∧
    activePage storePagesActive 0 = .ok (some 3) ∧
    fullName storePagesActive 2 = fullName storePagesActive 3 ∧
    nextPage storePagesActive 0 = .ok (some 3) ∧
    previousPage storePagesActive 0 = .ok none :=
  ⟨by decide, rfl, by decide, rfl, rfl⟩

/-! ## The `find` round-trip -/

/-- Claim C6 (amended): building a `Router` and calling the root's `find`
with a node's own five-field criteria always returns a node whose
`name`, `fullName`, `path`, `fullPath` and `label` all equal that node's —
namely the first such node in depth-first order, which need not be the
node itself when an earlier node carries identical values. -/
theorem c6_find_roundtrip_amended (ds : RouteDefs) (n : Nat)
    (hn : n ∈ allRoutes (buildRouter ds).1 0) :
    ∃ m, find (buildRouter ds).1 0 (critOf (buildRouter ds).1 n) = some m ∧
      (obj (buildRouter ds).1 m).label = (obj (buildRouter ds).1 n).label ∧
      (obj (buildRouter ds).1 m).name = (obj (buildRouter ds).1 n).name ∧
      fullName (buildRouter ds).1 m = fullName (buildRouter ds).1 n ∧
      (obj (buildRouter ds).1 m).path = (obj (buildRouter ds).1 n).path ∧
      fullPath (buildRouter ds).1 m = fullPath (buildRouter ds).1 n := by
  have hself : critPred (buildRouter ds).1 n (critOf (buildRouter ds).1 n) = true := by
    unfold critPred critOf optEq
    simp
  have hsome : ((allRoutes (buildRouter ds).1 0).find?
      (fun r => critPred (buildRouter ds).1 r (critOf (buildRouter ds).1 n))).isSome := by
    rw [List.find?_isSome]
    exact ⟨n, hn, hself⟩
  obtain ⟨m, hm⟩ := Option.isSome_iff_exists.mp hsome
  have hpm := List.find?_some hm
  simp only [critPred, critOf, optEq, Bool.and_eq_true, beq_iff_eq] at hpm
  exact ⟨m, hm, hpm.1.1.1.1.symm, hpm.1.1.1.2.symm, hpm.1.1.2.symm, hpm.1.2.symm,
    hpm.2.symm⟩

/-- Witness for C6 at the deep leaf `2` of the `dsPages` tree. -/
theorem c6_find_roundtrip_witness :
    (2 ∈ allRoutes (buildRouter dsPages).1 0) ∧
    (∃ m, find (buildRouter dsPages).1 0 (critOf (buildRouter dsPages).1 2) = some m ∧
      (obj (buildRouter dsPages).1 m).label = (obj (buildRouter dsPages).1 2).label ∧
      (obj (buildRouter dsPages).1 m).name = (obj (buildRouter dsPages).1 2).name ∧
      fullName (buildRouter dsPages).1 m = fullName (buildRouter dsPages).1 2 ∧
      (obj (buildRouter dsPages).1 m).path = (obj (buildRouter dsPages).1 2).path ∧
      fullPath (buildRouter dsPages).1 m = fullPath (buildRouter dsPages).1 2) :=
  ⟨by decide, c6_find_roundtrip_amended dsPages 2 (by decide)⟩

/-- Counterexample for C6 as stated: two identical top-level definitions
materialize as the distinct nodes `1` and `2` with equal values in all
five fields; `find` with node `2`'s own criteria returns node `1`, not
node `2`. -/
theorem c6_find_roundtrip_cex :
    (2 ∈ allRoutes storeDup 0) ∧
    find storeDup 0 (critOf storeDup 2) = some 1 ∧ (1 : Nat) ≠ 2 :=
  ⟨by decide, by decide, by decide⟩

/-! ## `fullName` / `fullPath` against the ancestor chain -/

theorem mem_skipEmpty_ne (l : List Str) (x : Str) (h : x ∈ skipEmpty l) : x ≠ [] := by
  unfold skipEmpty at h
  have := List.of_mem_filter h
  intro he
  rw [he] at this
  simp at this

theorem ne_nil_isEmpty_false (l : Str) (h : l ≠ []) : l.isEmpty = false := by
  cases l with
  | nil => exact absurd rfl h
  | cons a l2 => rfl

theorem joinDot_ne_nil (l : List Str) (hl : l ≠ []) (h2 : ∀ x ∈ l, x ≠ []) :
    joinDot l ≠ [] := by
  cases l with
  | nil => exact absurd rfl hl
  | cons x xs =>
    cases xs with
    | nil => exact h2 x (List.mem_cons_self _ _)
    | cons y ys =>
      show x ++ '.' :: joinDot (y :: ys) ≠ []
      simp

theorem joinDot_append_last (l : List Str) (b : Str) (hl : l ≠ []) :
    joinDot (l ++ [b]) = joinDot l ++ '.' :: b := by
  induction l with
  | nil => exact absurd rfl hl
  | cons x xs ih =>
    cases xs with
    | nil => simp [joinDot]
    | cons y ys =>
      have hys : (y :: ys) ≠ [] := by simp
      show joinDot (x :: ((y :: ys) ++ [b])) = (x ++ '.' :: joinDot (y :: ys)) ++ '.' :: b
      rw [List.cons_append]
      show x ++ '.' :: joinDot ((y :: ys) ++ [b]) = _
      rw [ih hys, List.append_assoc]
      rfl

/-- Folding one more (possibly empty) name onto an already-joined,
empty-free list of parts equals joining the extended filtered list. -/
theorem joinStep (A : List Str) (b : Str) (hA : ∀ x ∈ A, x ≠ []) :
    joinDot (skipEmpty [joinDot A, b]) = joinDot (A ++ skipEmpty [b]) := by
  cases hb : b with
  | nil =>
    have hsb : skipEmpty [joinDot A, []] = skipEmpty [joinDot A] := rfl
    rw [hsb]
    cases hAe : A with
    | nil => rfl
    | cons a A2 =>
      have hne : joinDot A ≠ [] := by
        rw [hAe] at hA ⊢
        exact joinDot_ne_nil _ (by simp) hA
      rw [← hAe]
      have : skipEmpty [joinDot A] = [joinDot A] := by
        unfold skipEmpty
        simp [List.filter, ne_nil_isEmpty_false _ hne]
      rw [this, show skipEmpty [([] : Str)] = [] from rfl, List.append_nil]
      rfl
  | cons c bs =>
    have hsb : skipEmpty [b] = [b] := by rw [hb]; rfl
    rw [← hb, hsb]
    cases hAe : A with
    | nil =>
      have : skipEmpty [joinDot [], b] = [b] := by rw [hb]; rfl
      rw [this]
      rfl
    | cons a A2 =>
      have hne : joinDot A ≠ [] := by
        rw [hAe] at hA ⊢
        exact joinDot_ne_nil _ (by simp) hA
      rw [← hAe]
      have hsk : skipEmpty [joinDot A, b] = [joinDot A, b] := by
        unfold skipEmpty
        simp [List.filter, ne_nil_isEmpty_false _ hne, hb]
      rw [hsk, joinDot_append_last A b (by rw [hAe]; simp)]
      rfl

theorem skipEmpty_append (l1 l2 : List Str) :
    skipEmpty (l1 ++ l2) = skipEmpty l1 ++ skipEmpty l2 := by
  unfold skipEmpty
  simp [List.filter_append]

theorem concatAll_append (l1 l2 : List Str) :
    concatAll (l1 ++ l2) = concatAll l1 ++ concatAll l2 := by
  induction l1 with
  | nil => rfl
  | cons x xs ih => simp [concatAll, ih]

theorem concatAll_skipEmpty (l : List Str) : concatAll (skipEmpty l) = concatAll l := by
  induction l with
  | nil => rfl
  | cons x xs ih =>
    cases x with
    | nil =>
      have : skipEmpty ([] :: xs) = skipEmpty xs := rfl
      rw [this, ih]
      rfl
    | cons c cs =>
      have : skipEmpty ((c :: cs) :: xs) = (c :: cs) :: skipEmpty xs := rfl
      rw [this]
      simp [concatAll, ih]

theorem fullName_ancestors (s : Store) (hwf : WF s) :
    ∀ i, i < s.length →
      fullName s i = joinDot (skipEmpty ((ancestors s i).map (fun j => (obj s j).name))) := by
  intro i
  induction i using Nat.strong_induction_on with
  | _ i ih =>
    intro hi
    cases hp : (obj s i).parentId with
    | none =>
      unfold fullName ancestors chainIncl
      simp [fullNameF, chainF, hp]
    | some p =>
      have hpi := wf_parent hwf hi hp
      have hps := Nat.lt_trans hpi hi
      unfold fullName ancestors chainIncl
      simp only [fullNameF, chainF, hp]
      rw [fullNameF_stable s hwf p hps i (p+1) (by omega) (by omega),
        chainF_stable s hwf p hps i (p+1) (by omega) (by omega)]
      rw [List.reverse_cons, List.map_append]
      have hIH := ih p hpi hps
      unfold fullName ancestors chainIncl at hIH
      rw [hIH, skipEmpty_append]
      exact joinStep _ (obj s i).name (fun x hx => mem_skipEmpty_ne _ x hx)

theorem fullPath_ancestors (s : Store) (hwf : WF s) :
    ∀ i, i < s.length →
      fullPath s i = concatAll (skipEmpty ((ancestors s i).map (fun j => (obj s j).path))) := by
  intro i
  induction i using Nat.strong_induction_on with
  | _ i ih =>
    intro hi
    cases hp : (obj s i).parentId with
    | none =>
      unfold fullPath ancestors chainIncl
      simp [fullPathF, chainF, hp, concatAll_skipEmpty]
    | some p =>
      have hpi := wf_parent hwf hi hp
      have hps := Nat.lt_trans hpi hi
      unfold fullPath ancestors chainIncl
      simp only [fullPathF, chainF, hp]
      rw [fullPathF_stable s hwf p hps i (p+1) (by omega) (by omega),
        chainF_stable s hwf p hps i (p+1) (by omega) (by omega)]
      rw [List.reverse_cons, List.map_append]
      have hIH := ih p hpi hps
      unfold fullPath ancestors chainIncl at hIH
      rw [hIH]
      simp only [concatAll_skipEmpty]
      rw [concatAll_append]
      simp [concatAll]

/-- Claim C4: every non-root node's `fullName` is its ancestors' names
(root to node) joined with `.` skipping empty names, and its `fullPath`
is the concatenation of its ancestors' paths skipping empty segments. -/
theorem c4_full_identifiers (s : Store) (i : Nat) (hwf : WF s) (hi : i < s.length)
    (hnr : (obj s i).parentId ≠ none) :
    fullName s i = joinDot (skipEmpty ((ancestors s i).map (fun j => (obj s j).name))) ∧
    fullPath s i = concatAll (skipEmpty ((ancestors s i).map (fun j => (obj s j).path))) :=
  ⟨fullName_ancestors s hwf i hi, fullPath_ancestors s hwf i hi⟩

/-- Witness for C4 at the depth-two node `2` of `storePages`. -/
theorem c4_full_identifiers_witness :
    WF storePages ∧ 2 < storePages.length ∧ (obj storePages 2).parentId ≠ none ∧
    (fullName storePages 2 =
        joinDot (skipEmpty ((ancestors storePages 2).map (fun j => (obj storePages j).name))) ∧
      fullPath storePages 2 =
        concatAll (skipEmpty ((ancestors storePages 2).map (fun j => (obj storePages j).path)))) :=
  ⟨by decide, by decide, by decide,
    c4_full_identifiers storePages 2 (by decide) (by decide) (by decide)⟩

/-! ## `add` preserves well-formedness and fires notifications up the chain -/

theorem modify_parentId_childIds (s : Store) (c : Nat) (x : Option Nat) (j : Nat) :
    (obj (modifyObj s c (fun o => { o with parentId := x })) j).childIds =
      (obj s j).childIds := by
  by_cases hjc : j = c
  · rw [hjc]
    by_cases hb : c < s.length
    · rw [obj_modify_self s c _ hb]
    · rw [obj_oob _ c (by rw [length_modifyObj]; omega), obj_oob s c (by omega)]
  · rw [obj_modify_other s c j _ hjc]

theorem setParent_childIds_self_sub (s : Store) (c q m : Nat)
    (hm : m ∈ (obj (setParent s c q) q).childIds) : m ∈ (obj s q).childIds ∨ m = c := by
  unfold setParent at hm
  by_cases hmem : c ∈ (obj (modifyObj s c (fun o => { o with parentId := some q })) q).childIds
  · rw [if_pos hmem] at hm
    left
    rw [← modify_parentId_childIds s c (some q) q]
    exact hm
  · rw [if_neg hmem] at hm
    by_cases hb : q < (modifyObj s c (fun o => { o with parentId := some q })).length
    · rw [obj_modify_self _ q _ hb] at hm
      rcases List.mem_append.mp hm with h | h
      · left
        rw [← modify_parentId_childIds s c (some q) q]
        exact h
      · right
        simpa using h
    · rw [obj_oob _ q (by rw [length_modifyObj, length_modifyObj]; rw [length_modifyObj] at hb; omega)] at hm
      have hd : (default : RouteObj).childIds = [] := rfl
      rw [hd] at hm
      simp at hm

theorem setParent_wf (s : Store) (c q : Nat) (hwf : WF s) (hc : c < s.length) (hq : q < c) :
    WF (setParent s c q) := by
  apply wf_intro
  intro i hi
  rw [length_setParent] at hi
  constructor
  · intro pq hpq
    by_cases hic : i = c
    · rw [hic] at hpq ⊢
      rw [setParent_parentId_self s c q hc] at hpq
      have : q = pq := Option.some.inj hpq
      omega
    · rw [setParent_parentId_other s c q i hic] at hpq
      exact wf_parent hwf hi hpq
  · intro m hm
    rw [length_setParent]
    by_cases hiq : i = q
    · rw [hiq] at hm ⊢
      rcases setParent_childIds_self_sub s c q m hm with h | h
      · exact wf_child hwf (by omega : q < s.length) h
      · rw [h]
        exact ⟨hq, hc⟩
    · rw [setParent_childIds_other s c q i hiq] at hm
      exact wf_child hwf hi hm

theorem wf_append_fresh (s : Store) (o : RouteObj) (hwf : WF s)
    (hpar : o.parentId = none) (hch : o.childIds = []) : WF (s ++ [o]) := by
  apply wf_intro
  intro i hi
  rw [List.length_append] at hi
  by_cases hlt : i < s.length
  · rw [obj_append_lt s [o] i hlt]
    have h := wf_elim hwf i hlt
    refine ⟨h.1, fun c hc => ⟨(h.2 c hc).1, ?_⟩⟩
    have := (h.2 c hc).2
    rw [List.length_append]
    omega
  · have hieq : i = s.length := by
      simp at hi
      omega
    rw [hieq, obj_append_self s o]
    constructor
    · intro pq hpq
      rw [hpar] at hpq
      simp at hpq
    · intro cc hcc
      rw [hch] at hcc
      simp at hcc

mutual

theorem add_ok : ∀ (d : RouteDef) (s : Store) (p : Nat), p < s.length → AddOK s p d
  | .mk label name path routes, s, p, hp => by
    have hlen1 : (s ++ [freshObj label name
        (RouteDef.mk label name path routes).pathOrDefault]).length = s.length + 1 := by
      simp
    have hN1 : s.length < (s ++ [freshObj label name
        (RouteDef.mk label name path routes).pathOrDefault]).length := by omega
    obtain ⟨hB1, hB2, hB3, hB4⟩ := addList_ok routes
      (s ++ [freshObj label name (RouteDef.mk label name path routes).pathOrDefault])
      s.length hN1
    unfold AddOK
    simp only [add]
    have hN2 : s.length < (addList
        (s ++ [freshObj label name (RouteDef.mk label name path routes).pathOrDefault])
        s.length routes).1.length := by omega
    refine ⟨by trivial, ?_, ?_, ?_, ?_, ?_, ?_, ?_⟩
    · rw [length_setParent]
      omega
    · intro i hi
      constructor
      · rw [setParent_core]
        have h2 := (hB2 i (by omega)).1
        rw [h2, obj_append_lt s _ i hi]
      · rw [setParent_parentId_other _ s.length p i (by omega)]
        have h2 := (hB2 i (by omega)).2
        rw [h2, obj_append_lt s _ i hi]
    · exact setParent_parentId_self _ s.length p hN2
    · have hcore3 : core (obj (setParent (addList
          (s ++ [freshObj label name (RouteDef.mk label name path routes).pathOrDefault])
          s.length routes).1 s.length p) s.length) =
          core (freshObj label name (RouteDef.mk label name path routes).pathOrDefault) := by
        rw [setParent_core, (hB2 s.length (by omega)).1, obj_append_self]
      exact congrArg (fun t => t.2.2.2.2) hcore3
    · rw [List.filter_append]
      have hnil : ((addList
          (s ++ [freshObj label name (RouteDef.mk label name path routes).pathOrDefault])
          s.length routes).2.filter (fun e => e.2 == s.length)) = [] := by
        rw [List.filter_eq_nil_iff]
        intro e he
        have := hB3 e he
        rw [hlen1] at this
        simp
        omega
      rw [hnil, List.nil_append]
      have hmap := didCreateF_eq_chainF (setParent (addList
          (s ++ [freshObj label name (RouteDef.mk label name path routes).pathOrDefault])
          s.length routes).1 s.length p) (p+1) p s.length
      show (didCreateF _ (p+1) p s.length).filter (fun e => e.2 == s.length) =
        didCreateF _ (p+1) p s.length
      rw [hmap]
      apply List.filter_eq_self.mpr
      intro e he
      obtain ⟨j, hj, rfl⟩ := List.mem_map.mp he
      simp
    · intro e he
      rcases List.mem_append.mp he with h | h
      · have := hB3 e h
        rw [hlen1] at this
        omega
      · have hmap := didCreateF_eq_chainF (setParent (addList
            (s ++ [freshObj label name (RouteDef.mk label name path routes).pathOrDefault])
            s.length routes).1 s.length p) (p+1) p s.length
        unfold didCreateEvents at h
        rw [hmap] at h
        obtain ⟨j, hj, rfl⟩ := List.mem_map.mp h
        exact Nat.le_refl _
    · intro hwf
      have hwf1 : WF (s ++ [freshObj label name
          (RouteDef.mk label name path routes).pathOrDefault]) :=
        wf_append_fresh s _ hwf rfl rfl
      have hwf2 := hB4 hwf1
      exact setParent_wf _ s.length p hwf2 hN2 hp

theorem addList_ok : ∀ (ds : RouteDefs) (s : Store) (r : Nat), r < s.length → AddListOK s r ds
  | .nil, s, r, hr => by
    unfold AddListOK
    simp only [addList]
    exact ⟨Nat.le_refl _, fun i hi => ⟨by trivial, by trivial⟩, by intro e he; simp at he,
      fun h => h⟩
  | .cons d ds, s, r, hr => by
    obtain ⟨hA1, hA2, hA3, hA4, hA5, hA6, hA7, hA8⟩ := add_ok d s r hr
    have hr2 : r < (add s r d).1.length := by omega
    obtain ⟨hB1, hB2, hB3, hB4⟩ := addList_ok ds (add s r d).1 r hr2
    unfold AddListOK
    simp only [addList]
    refine ⟨by omega, ?_, ?_, ?_⟩
    · intro i hi
      have h1 := hA3 i hi
      have h2 := hB2 i (by omega)
      exact ⟨h2.1.trans h1.1, h2.2.trans h1.2⟩
    · intro e he
      rcases List.mem_append.mp he with h | h
      · exact hA7 e h
      · have := hB3 e h
        omega
    · intro hwf
      exact hB4 (hA8 hwf)

end

/-- Claim C2: attaching a node `N` via `add` fires the registered
`onNewRoute` listeners exactly along `N`'s parent chain as it stands at
the moment of the call — `N`'s own listener first (necessarily absent on a
freshly created node, whose `_onNewRoute` is still the default no-op),
then its parent's, and so on upward.  Formally: the registered-listener
firings among the call's recorded invocations with argument `N` equal the
registered-listener subsequence of `N`'s inclusive parent chain, each
invoked with `N`. -/
theorem c2_notification_order (s : Store) (p : Nat) (d : RouteDef)
    (hwf : WF s) (hp : p < s.length)
    (s2 : Store) (N : Nat) (evs : List Ev) (heq : add s p d = (s2, N, evs)) :
    firedReg s2 (evs.filter (fun e => e.2 == N)) =
      firedReg s2 ((chainIncl s2 N).map (fun j => (j, N))) := by
  obtain ⟨h1, h2, h3, h4, h5, h6, h7, h8⟩ := add_ok d s p hp
  rw [heq] at h1 h2 h4 h5 h6 h8
  dsimp only at h1 h2 h4 h5 h6 h8
  subst h1
  rw [h6]
  have hwf2 := h8 hwf
  have hps2 : p < s2.length := by omega
  have hstab : chainF s2 s.length p = chainF s2 (p+1) p :=
    chainF_stable s2 hwf2 p hps2 s.length (p+1) (by omega) (by omega)
  have hchain : chainIncl s2 s.length = s.length :: chainF s2 (p+1) p := by
    unfold chainIncl
    have hstep : chainF s2 (s.length + 1) s.length = s.length :: chainF s2 s.length p := by
      simp only [chainF, h4]
    rw [hstep, hstab]
  rw [hchain, List.map_cons]
  unfold firedReg
  rw [List.filter_cons]
  have hcond : (((obj s2 ((s.length, s.length) : Ev).1).listener).isSome) = false := by
    dsimp only
    rw [h5]
    rfl
  rw [hcond]
  simp only [Bool.false_eq_true, if_false]
  unfold didCreateEvents
  rw [didCreateF_eq_chainF]

/-- Witness for C2: adding a definition to node `1` of `storeListen`
(whose root has a registered listener). -/
theorem c2_notification_order_witness :
    WF storeListen ∧ 1 < storeListen.length ∧
    firedReg (add storeListen 1 (RouteDef.mk (chars "B") (chars "b") none .nil)).1
        (((add storeListen 1 (RouteDef.mk (chars "B") (chars "b") none .nil)).2.2).filter
          (fun e => e.2 == (add storeListen 1 (RouteDef.mk (chars "B") (chars "b") none .nil)).2.1)) =
      firedReg (add storeListen 1 (RouteDef.mk (chars "B") (chars "b") none .nil)).1
        ((chainIncl (add storeListen 1 (RouteDef.mk (chars "B") (chars "b") none .nil)).1
            (add storeListen 1 (RouteDef.mk (chars "B") (chars "b") none .nil)).2.1).map
          (fun j => (j, (add storeListen 1 (RouteDef.mk (chars "B") (chars "b") none .nil)).2.1))) :=
  ⟨by decide, by decide,
    c2_notification_order storeListen 1 (RouteDef.mk (chars "B") (chars "b") none .nil)
      (by decide) (by decide) _ _ _ rfl⟩

end RouterSpec
